import Mathlib

/-!
# Byte streams of `src/common/MemoryStreams.cpp` and the lock guard of `src/common/Lock.hpp`

A shallow embedding of the bounded ring buffer `common::CircularBuffer`, of the flat,
string and vector streams, and of the calls a `common::LockGuard` makes on its mutex.

Conventions of the embedding.

* A byte is a `UInt8`; a byte array (`BinaryArray`, a `void *` with its size) is a
  `List Byte`.  A pointer into the storage array is the index it points at.
* `size_t` counters are natural numbers.  Every theorem below is stated for states in
  which `read_pos <= write_pos <= read_pos + impl.size()` and for counts bounded by the
  contiguous regions; there no sum exceeds `read_pos + impl.size()`, which is below
  `2 * impl.size()` once `read_pos < impl.size()`, and every subtraction has a minuend at
  least as large as its subtrahend.
* `invariant(cond, msg)` (from `Invariant.hpp`) raises: operations return `Except String`,
  `.error msg` being the raised failure.
* `BC_CREATE_LOCK` takes a reentrant mutex and releases it at scope exit; it does not
  touch the data and is left out of the sequential model of the streams.  The guard itself
  is modelled by the list of calls its constructor and destructor make, the process-wide
  variables `nthreads` and `debug_locks` being parameters.
* The `while (true)` loops take a fuel argument, `none` meaning the fuel ran out.
-/

namespace common

/-- A byte of storage (`uint8_t`, `char`). -/
abbrev Byte := UInt8

/-- The libc call `memcpy(dst + off, src, n)`: the `n` first bytes of `src` replace the
bytes of `dst` at indices `off .. off + n - 1`. -/
def memcpy (dst : List Byte) (off : Nat) (src : List Byte) (n : Nat) : List Byte :=
  dst.take off ++ src.take n ++ dst.drop (off + n)

/-- The bytes `memcpy(data, src + off, n)` stores into the caller's buffer `data`. -/
def memread (src : List Byte) (off : Nat) (n : Nat) : List Byte :=
  (src.drop off).take n

/-- The readable capability `IInputStream`: `read_some(data, size)` returns the bytes it
stored at `data`, the reported count being their number; the stream has a state of type
`σ`. -/
structure IInputStream (σ : Type) where
  read_some : σ → Nat → Except String (σ × List Byte)

/-- The writable capability `IOutputStream`: `write_some(data, size)` is offered the
`size` bytes at `data` and reports how many it accepted. -/
structure IOutputStream (σ : Type) where
  write_some : σ → List Byte → Nat → Except String (σ × Nat)

/-- The class `CircularBuffer`: the storage `impl` and the two cursors. -/
structure CircularBuffer where
  impl : List Byte
  read_pos : Nat
  write_pos : Nat
  deriving DecidableEq, Repr

namespace CircularBuffer

/-- Modelled from the spec: the constructor of `CircularBuffer` is declared in
`MemoryStreams.hpp`, which is not among the sources.  A freshly constructed buffer has a
storage of `si` bytes and `readPos = writePos = 0`. -/
def create (si : Nat) : CircularBuffer :=
  { impl := List.replicate si 0, read_pos := 0, write_pos := 0 }

/-- Modelled from the spec: `read_ptr()` is declared in `MemoryStreams.hpp`, which is not
among the sources.  The readable contiguous region starts at storage index
`readPos mod C`. -/
def read_ptr (s : CircularBuffer) : Nat :=
  s.read_pos % s.impl.length

/-- Modelled from the spec: `read_count()` is declared in `MemoryStreams.hpp`, which is
not among the sources.  The readable contiguous region has length
`min(writePos − readPos, C − (readPos mod C))`. -/
def read_count (s : CircularBuffer) : Nat :=
  min (s.write_pos - s.read_pos) (s.impl.length - s.read_pos % s.impl.length)

/-- Modelled from the spec: `write_ptr()` is declared in `MemoryStreams.hpp`, which is
not among the sources.  The writable contiguous region starts at storage index
`writePos mod C`. -/
def write_ptr (s : CircularBuffer) : Nat :=
  s.write_pos % s.impl.length

/-- Modelled from the spec: `write_count()` is declared in `MemoryStreams.hpp`, which is
not among the sources.  The writable contiguous region has length
`min(C − (writePos − readPos), C − (writePos mod C))`. -/
def write_count (s : CircularBuffer) : Nat :=
  min (s.impl.length - (s.write_pos - s.read_pos)) (s.impl.length - s.write_pos % s.impl.length)

/-- The method `CircularBuffer::did_write(count)`. -/
def did_write (s : CircularBuffer) (count : Nat) : Except String CircularBuffer :=
  let write_pos := s.write_pos + count
  if write_pos ≤ s.read_pos + s.impl.length then
    .ok { s with write_pos := write_pos }
  else
    .error "Writing past end of Buffer"

/-- The method `CircularBuffer::did_read(count)`. -/
def did_read (s : CircularBuffer) (count : Nat) : Except String CircularBuffer :=
  let read_pos := s.read_pos + count
  if read_pos ≤ s.write_pos then
    if read_pos ≥ s.impl.length then
      .ok { s with read_pos := read_pos - s.impl.length,
                   write_pos := s.write_pos - s.impl.length }
    else
      .ok { s with read_pos := read_pos }
  else
    .error "Reading past end of Buffer"

/-- The method `CircularBuffer::read_some(data, size)`: the new state, the bytes stored at `data`
and the returned count. -/
def read_some (s : CircularBuffer) (size : Nat) :
    Except String (CircularBuffer × List Byte × Nat) :=
  let rc := min size (read_count s)
  let data := memread s.impl (read_ptr s) rc
  match did_read s rc with
  | .ok s' => .ok (s', data, rc)
  | .error e => .error e

/-- The method `CircularBuffer::write_some(data, size)`: the new state and the returned count. -/
def write_some (s : CircularBuffer) (data : List Byte) (size : Nat) :
    Except String (CircularBuffer × Nat) :=
  let rc := min size (write_count s)
  let dest := write_ptr s
  match did_write { s with impl := memcpy s.impl dest data rc } rc with
  | .ok s' => .ok (s', rc)
  | .error e => .error e

/-- The method `CircularBuffer::copy_from(in)`, one unit of fuel per loop iteration; the
source stores its bytes at `write_ptr()`. -/
def copy_from {σ : Type} (inp : IInputStream σ) :
    Nat → CircularBuffer → σ → Option (Except String (CircularBuffer × σ))
  | 0, _, _ => none
  | fuel + 1, s, i =>
    let wc := write_count s
    if wc = 0 then some (.ok (s, i))
    else
      match inp.read_some i wc with
      | .error e => some (.error e)
      | .ok (i', bytes) =>
        let count := bytes.length
        match did_write { s with impl := memcpy s.impl (write_ptr s) bytes count } count with
        | .error e => some (.error e)
        | .ok s' =>
          if count = 0 then some (.ok (s', i'))
          else copy_from inp fuel s' i'

/-- The loop of `CircularBuffer::copy_to(out, max_count)` entered with the running
`total_count`, one unit of fuel per loop iteration. -/
def copy_to_loop {σ : Type} (out : IOutputStream σ) :
    Nat → CircularBuffer → σ → Nat → Nat → Option (Except String (CircularBuffer × σ × Nat))
  | 0, _, _, _, _ => none
  | fuel + 1, s, o, max_count, total_count =>
    let rc := min (read_count s) max_count
    if rc = 0 then some (.ok (s, o, total_count))
    else
      match out.write_some o (memread s.impl (read_ptr s) rc) rc with
      | .error e => some (.error e)
      | .ok (o', count) =>
        match did_read s count with
        | .error e => some (.error e)
        | .ok s' =>
          if count = 0 then some (.ok (s', o', total_count + count))
          else copy_to_loop out fuel s' o' (max_count - count) (total_count + count)

/-- The method `CircularBuffer::copy_to(out, max_count)`: the new state, the sink's new state and the
returned `total_count`. -/
def copy_to {σ : Type} (out : IOutputStream σ) (fuel : Nat) (s : CircularBuffer) (o : σ)
    (max_count : Nat) : Option (Except String (CircularBuffer × σ × Nat)) :=
  copy_to_loop out fuel s o max_count 0

/-- The two cursor inequalities of the ring buffer. -/
def Inv (s : CircularBuffer) : Prop :=
  s.read_pos ≤ s.write_pos ∧ s.write_pos ≤ s.read_pos + s.impl.length

instance : DecidablePred Inv := fun s => by unfold Inv; infer_instance

/-- A valid ring-buffer state: `C > 0`, `readPos <= writePos <= readPos + C`,
`readPos < C`. -/
def Valid (s : CircularBuffer) : Prop :=
  0 < s.impl.length ∧ s.read_pos ≤ s.write_pos ∧ s.write_pos ≤ s.read_pos + s.impl.length ∧
    s.read_pos < s.impl.length

instance : DecidablePred Valid := fun s => by unfold Valid; infer_instance

/-- The unread bytes, oldest first: the byte of counter `p` is at index `p mod C`. -/
def unread (s : CircularBuffer) : List Byte :=
  (List.range (s.write_pos - s.read_pos)).map
    (fun i => s.impl.getD ((s.read_pos + i) % s.impl.length) 0)

/-- The state `did_read(count)` leaves when its invariant check passes: the read cursor
advanced by `count`, then both cursors normalized. -/
def read_advanced (s : CircularBuffer) (count : Nat) : CircularBuffer :=
  if s.read_pos + count ≥ s.impl.length then
    { s with read_pos := s.read_pos + count - s.impl.length,
             write_pos := s.write_pos - s.impl.length }
  else { s with read_pos := s.read_pos + count }

/-- The state `write_some` and `copy_from` leave after storing `n` bytes of `data`. -/
def written (s : CircularBuffer) (data : List Byte) (n : Nat) : CircularBuffer :=
  { impl := memcpy s.impl (write_ptr s) data n,
    read_pos := s.read_pos,
    write_pos := s.write_pos + n }

end CircularBuffer

/-- A source that returns normally and reports at most the count it was asked for. -/
def IInputStream.Bounded {σ : Type} (inp : IInputStream σ) : Prop :=
  ∀ i n, ∃ i' bytes, inp.read_some i n = .ok (i', bytes) ∧ bytes.length ≤ n

/-- A sink that returns normally and reports at most the count it was offered. -/
def IOutputStream.Bounded {σ : Type} (out : IOutputStream σ) : Prop :=
  ∀ o data n, ∃ o' count, out.write_some o data n = .ok (o', count) ∧ count ≤ n

namespace CircularBuffer

/-- What a write-side operation taking `s` to `s'` leaves in place: the read cursor, the
capacity, every storage cell `(readPos + i) mod C` of an unread byte, so that storage
changes only at indices that hold no unread byte, and the unread bytes of `s` as a prefix
of those of `s'`. -/
def KeepsUnread (s s' : CircularBuffer) : Prop :=
  s'.read_pos = s.read_pos ∧ s'.impl.length = s.impl.length ∧
    (∀ i, i < s.write_pos - s.read_pos →
      s'.impl[(s.read_pos + i) % s.impl.length]? = s.impl[(s.read_pos + i) % s.impl.length]?) ∧
    (∀ k, s'.impl[k]? ≠ s.impl[k]? →
      ∀ i, i < s.write_pos - s.read_pos → k ≠ (s.read_pos + i) % s.impl.length) ∧
    ∃ extra, unread s' = unread s ++ extra

/-- The states a buffer of capacity `C` can reach from construction by the four stream
operations, the counterpart streams being bounded. -/
inductive Reachable (C : Nat) : CircularBuffer → Prop
  | fresh : Reachable C (create C)
  | write_some {s s' : CircularBuffer} {data : List Byte} {size n : Nat} :
      Reachable C s → size ≤ data.length → write_some s data size = .ok (s', n) →
      Reachable C s'
  | read_some {s s' : CircularBuffer} {size n : Nat} {data : List Byte} :
      Reachable C s → read_some s size = .ok (s', data, n) → Reachable C s'
  | copy_from {σ : Type} {inp : IInputStream σ} {fuel : Nat} {s s' : CircularBuffer}
      {i i' : σ} :
      Reachable C s → inp.Bounded → copy_from inp fuel s i = some (.ok (s', i')) →
      Reachable C s'
  | copy_to {σ : Type} {out : IOutputStream σ} {fuel : Nat} {s s' : CircularBuffer}
      {o o' : σ} {max_count total : Nat} :
      Reachable C s → out.Bounded → copy_to out fuel s o max_count = some (.ok (s', o', total)) →
      Reachable C s'

/-- A call of the ring buffer's byte interface: `write_some(data, size)` or
`read_some(buffer, size)`. -/
inductive Call
  | write_some (data : List Byte) (size : Nat)
  | read_some (size : Nat)
  deriving DecidableEq, Repr

/-- A completed call with what it returned: `write_some(data, size)` returned `n`;
`read_some(buffer, size)` returned `n` and stored `bytes` in `buffer`. -/
inductive Event
  | write_some (data : List Byte) (size n : Nat)
  | read_some (size : Nat) (bytes : List Byte) (n : Nat)
  deriving DecidableEq, Repr

/-- The caller's side of `write_some(data, size)`: `data` points at `size` bytes at
least. -/
def Call.WellFormed : Call → Prop
  | .write_some data size => size ≤ data.length
  | .read_some _ => True

/-- The calls applied in order, each to the state the previous one left. -/
def run : CircularBuffer → List Call → Except String (CircularBuffer × List Event)
  | s, [] => .ok (s, [])
  | s, .write_some data size :: calls =>
    match write_some s data size with
    | .error e => .error e
    | .ok (s', n) =>
      match run s' calls with
      | .error e => .error e
      | .ok (s'', events) => .ok (s'', .write_some data size n :: events)
  | s, .read_some size :: calls =>
    match read_some s size with
    | .error e => .error e
    | .ok (s', bytes, n) =>
      match run s' calls with
      | .error e => .error e
      | .ok (s'', events) => .ok (s'', .read_some size bytes n :: events)

/-- The concatenation of the accepted bytes of the `write_some` calls: the first `n`
bytes of each call's `data`, `n` being its return value. -/
def accepted : List Event → List Byte
  | [] => []
  | .write_some data _ n :: events => data.take n ++ accepted events
  | .read_some _ _ _ :: events => accepted events

/-- The concatenation of the bytes returned by the `read_some` calls. -/
def returned : List Event → List Byte
  | [] => []
  | .write_some _ _ _ :: events => returned events
  | .read_some _ bytes n :: events => bytes.take n ++ returned events

end CircularBuffer

/-- The class `MemoryInputStream`: a cursor over `buffer_size` bytes at `buffer`. -/
structure MemoryInputStream where
  buffer : List Byte
  buffer_size : Nat
  in_position : Nat
  deriving DecidableEq, Repr

namespace MemoryInputStream

/-- The constructor `MemoryInputStream::MemoryInputStream(buffer, buffer_size)`. -/
def create (buffer : List Byte) (buffer_size : Nat) : MemoryInputStream :=
  { buffer := buffer, buffer_size := buffer_size, in_position := 0 }

/-- The method `MemoryInputStream::read_some(data, size)`: the new state, the bytes stored at `data`
and the returned count. -/
def read_some (m : MemoryInputStream) (size : Nat) :
    Except String (MemoryInputStream × List Byte × Nat) :=
  if m.in_position ≤ m.buffer_size then
    let size := min size (m.buffer_size - m.in_position)
    let data := if size > 0 then memread m.buffer m.in_position size else []
    .ok ({ m with in_position := m.in_position + size }, data, size)
  else
    .error "jump over the end of buffer"

/-- A `MemoryInputStream` seen through the `IInputStream` interface. -/
def stream : IInputStream MemoryInputStream :=
  { read_some := fun m size =>
      match m.read_some size with
      | .ok (m', data, _) => .ok (m', data)
      | .error e => .error e }

/-- The cursor is inside the buffer and the buffer has `buffer_size` bytes at least. -/
def Valid (m : MemoryInputStream) : Prop :=
  m.in_position ≤ m.buffer_size ∧ m.buffer_size ≤ m.buffer.length

instance : DecidablePred Valid := fun m => by unfold Valid; infer_instance

end MemoryInputStream

/-- Modelled from the spec: the helper `append(result, begin, end)` that
`VectorOutputStream::write_some` calls is declared in a header that is not among the
sources.  The writer appends all `size` bytes at `data` to the sequence. -/
def append (result : List Byte) (data : List Byte) (size : Nat) : List Byte :=
  result ++ data.take size

/-- The class `VectorOutputStream`: the byte vector `out` it appends to. -/
structure VectorOutputStream where
  out : List Byte
  deriving DecidableEq, Repr

namespace VectorOutputStream

/-- The method `VectorOutputStream::write_some(data, size)`: `append(*out, data, data + size)`
inserts the `size` bytes at the end of the vector. -/
def write_some (v : VectorOutputStream) (data : List Byte) (size : Nat) :
    VectorOutputStream × Nat :=
  ({ out := append v.out data size }, size)

/-- A `VectorOutputStream` seen through the `IOutputStream` interface. -/
def stream : IOutputStream VectorOutputStream :=
  { write_some := fun v data size => .ok (v.write_some data size) }

end VectorOutputStream

/-- A sink whose `write_some` accepts everything offered. -/
def IOutputStream.AcceptsAll {σ : Type} (out : IOutputStream σ) : Prop :=
  ∀ o data n, ∃ o', out.write_some o data n = .ok (o', n)

/-- A sink that appends what it accepts to the byte sequence `contents` it holds. -/
def IOutputStream.AppendsTo {σ : Type} (out : IOutputStream σ) (contents : σ → List Byte) :
    Prop :=
  ∀ o data n o' count, out.write_some o data n = .ok (o', count) →
    contents o' = contents o ++ data.take count

/-- The sink `out` with a record of the size of every `write_some` call it received. -/
def IOutputStream.logged {σ : Type} (out : IOutputStream σ) : IOutputStream (σ × List Nat) :=
  { write_some := fun o data size =>
      match out.write_some o.1 data size with
      | .ok (o', n) => .ok ((o', o.2 ++ [size]), n)
      | .error e => .error e }

namespace MemoryInputStream

/-- Successive `read_some` calls with the given sizes, each on the state the previous one
left: the final state and the bytes each call returned. -/
def read_all : MemoryInputStream → List Nat →
    Except String (MemoryInputStream × List (List Byte))
  | m, [] => .ok (m, [])
  | m, size :: sizes =>
    match m.read_some size with
    | .error e => .error e
    | .ok (m', data, n) =>
      match read_all m' sizes with
      | .error e => .error e
      | .ok (m'', outs) => .ok (m'', data.take n :: outs)

end MemoryInputStream

/-- The class `StringInputStream`: a cursor `in_position` into the shared string `in`. -/
structure StringInputStream where
  in_ : List Byte
  in_position : Nat
  deriving DecidableEq, Repr

namespace StringInputStream

/-- The method `StringInputStream::read_some(data, size)`: the new state, the bytes stored
at `data` and the returned count. -/
def read_some (st : StringInputStream) (size : Nat) :
    Except String (StringInputStream × List Byte × Nat) :=
  if st.in_position ≤ st.in_.length then
    let size := min size (st.in_.length - st.in_position)
    let data := memread st.in_ st.in_position size
    .ok ({ st with in_position := st.in_position + size }, data, size)
  else
    .error "jump over the end of buffer"

/-- The loop of `StringInputStream::copy_to(out, max_count)` entered with the running
`total_count`, one unit of fuel per loop iteration. -/
def copy_to_loop {σ : Type} (out : IOutputStream σ) :
    Nat → StringInputStream → σ → Nat → Nat →
    Option (Except String (StringInputStream × σ × Nat))
  | 0, _, _, _, _ => none
  | fuel + 1, st, o, max_count, total_count =>
    let rc := min (st.in_.length - st.in_position) max_count
    if rc = 0 then some (.ok (st, o, total_count))
    else
      match out.write_some o (memread st.in_ st.in_position rc) rc with
      | .error e => some (.error e)
      | .ok (o', count) =>
        if count = 0 then
          some (.ok ({ st with in_position := st.in_position + count }, o',
            total_count + count))
        else
          copy_to_loop out fuel { st with in_position := st.in_position + count } o'
            (max_count - count) (total_count + count)

/-- The method `StringInputStream::copy_to(out, max_count)`: the new state, the sink's new
state and the returned `total_count`. -/
def copy_to {σ : Type} (out : IOutputStream σ) (fuel : Nat) (st : StringInputStream) (o : σ)
    (max_count : Nat) : Option (Except String (StringInputStream × σ × Nat)) :=
  copy_to_loop out fuel st o max_count 0

end StringInputStream

/-- The class `VectorInputStream`: a cursor `in_position` into the shared vector `in`. -/
structure VectorInputStream where
  in_ : List Byte
  in_position : Nat
  deriving DecidableEq, Repr

namespace VectorInputStream

/-- The method `VectorInputStream::read_some(data, size)`: the new state, the bytes stored
at `data` and the returned count. -/
def read_some (st : VectorInputStream) (size : Nat) :
    Except String (VectorInputStream × List Byte × Nat) :=
  if st.in_position ≤ st.in_.length then
    let size := min size (st.in_.length - st.in_position)
    let data := memread st.in_ st.in_position size
    .ok ({ st with in_position := st.in_position + size }, data, size)
  else
    .error "jump over the end of buffer"

/-- The loop of `VectorInputStream::copy_to(out, max_count)` entered with the running
`total_count`, one unit of fuel per loop iteration. -/
def copy_to_loop {σ : Type} (out : IOutputStream σ) :
    Nat → VectorInputStream → σ → Nat → Nat →
    Option (Except String (VectorInputStream × σ × Nat))
  | 0, _, _, _, _ => none
  | fuel + 1, st, o, max_count, total_count =>
    let size := st.in_.length
    let rc := min (size - st.in_position) max_count
    if rc = 0 then some (.ok (st, o, total_count))
    else
      match out.write_some o (memread st.in_ st.in_position rc) rc with
      | .error e => some (.error e)
      | .ok (o', count) =>
        if count = 0 then
          some (.ok ({ st with in_position := st.in_position + count }, o',
            total_count + count))
        else
          copy_to_loop out fuel { st with in_position := st.in_position + count } o'
            (max_count - count) (total_count + count)

/-- The method `VectorInputStream::copy_to(out, max_count)`: the new state, the sink's new
state and the returned `total_count`. -/
def copy_to {σ : Type} (out : IOutputStream σ) (fuel : Nat) (st : VectorInputStream) (o : σ)
    (max_count : Nat) : Option (Except String (VectorInputStream × σ × Nat)) :=
  copy_to_loop out fuel st o max_count 0

end VectorInputStream

/-- The class `StringOutputStream`: the string `out` it appends to. -/
structure StringOutputStream where
  out : List Byte
  deriving DecidableEq, Repr

namespace StringOutputStream

/-- The method `StringOutputStream::write_some(data, size)`: `out->append(data, size)`
appends the `size` first bytes at `data` to the string. -/
def write_some (v : StringOutputStream) (data : List Byte) (size : Nat) :
    StringOutputStream × Nat :=
  ({ out := v.out ++ data.take size }, size)

end StringOutputStream

/-- A call a `LockGuard` makes on its mutex, or a line it writes to the diagnostic
stream. -/
inductive LockEvent
  | lock
  | unlock
  | trace (what : String)
  deriving DecidableEq, Repr

namespace LockGuard

/-- The constructor `LockGuard::LockGuard(mtx, id, where)`, run while the process-wide
variables have the values `nthreads` and `debug_locks`: what it does, in order. -/
def construct (nthreads : Nat) (debug_locks : Bool) : List LockEvent :=
  if nthreads > 1 then
    (if debug_locks then [LockEvent.trace "locking"] else []) ++ [LockEvent.lock] ++
      (if debug_locks then [LockEvent.trace "locked"] else [])
  else []

/-- The destructor `LockGuard::~LockGuard()`, run while the process-wide variables have
the values `nthreads` and `debug_locks`: what it does, in order. -/
def destruct (nthreads : Nat) (debug_locks : Bool) : List LockEvent :=
  if nthreads > 1 then
    [LockEvent.unlock] ++ (if debug_locks then [LockEvent.trace "unlocked"] else [])
  else []

/-- The guard acquired the mutex on construction. -/
def acquired (nthreads : Nat) (debug_locks : Bool) : Prop :=
  LockEvent.lock ∈ construct nthreads debug_locks

/-- The guard released the mutex on destruction. -/
def released (nthreads : Nat) (debug_locks : Bool) : Prop :=
  LockEvent.unlock ∈ destruct nthreads debug_locks

instance (nthreads : Nat) (debug_locks : Bool) : Decidable (acquired nthreads debug_locks) := by
  unfold acquired; infer_instance

instance (nthreads : Nat) (debug_locks : Bool) : Decidable (released nthreads debug_locks) := by
  unfold released; infer_instance

end LockGuard

/-! ## Auxiliary lemmas -/

theorem memcpy_length (dst src : List Byte) (off n : Nat) (h1 : off + n ≤ dst.length)
    (h2 : n ≤ src.length) : (memcpy dst off src n).length = dst.length := by
  simp only [memcpy, List.length_append, List.length_take, List.length_drop]
  omega

theorem memread_length (src : List Byte) (off n : Nat) (h : off + n ≤ src.length) :
    (memread src off n).length = n := by
  simp only [memread, List.length_take, List.length_drop]
  omega

namespace CircularBuffer

theorem write_count_le_free (s : CircularBuffer) :
    write_count s ≤ s.impl.length - (s.write_pos - s.read_pos) := by
  unfold write_count; omega

theorem write_ptr_add_write_count (s : CircularBuffer) (hC : 0 < s.impl.length) :
    write_ptr s + write_count s ≤ s.impl.length := by
  have := Nat.mod_lt s.write_pos hC
  unfold write_ptr write_count; omega

theorem read_count_le_unread (s : CircularBuffer) :
    read_count s ≤ s.write_pos - s.read_pos := by
  unfold read_count; omega

theorem read_ptr_add_read_count (s : CircularBuffer) (hC : 0 < s.impl.length) :
    read_ptr s + read_count s ≤ s.impl.length := by
  have := Nat.mod_lt s.read_pos hC
  unfold read_ptr read_count; omega

/-- The advance step of a write of `count <= free` bytes does not raise. -/
theorem did_write_eq (s : CircularBuffer) (count : Nat)
    (h : s.write_pos + count ≤ s.read_pos + s.impl.length) :
    did_write s count = .ok { s with write_pos := s.write_pos + count } := by
  simp [did_write, h]

/-- The advance step of a read of `count <= unread` bytes does not raise. -/
theorem did_read_eq (s : CircularBuffer) (count : Nat)
    (h : s.read_pos + count ≤ s.write_pos) :
    did_read s count = .ok (read_advanced s count) := by
  simp only [did_read, h, if_true, read_advanced]
  split <;> rfl

theorem read_advanced_impl (s : CircularBuffer) (count : Nat) :
    (read_advanced s count).impl = s.impl := by
  unfold read_advanced; split <;> rfl

theorem read_advanced_inv (s : CircularBuffer) (count : Nat) (hs : Inv s)
    (h : s.read_pos + count ≤ s.write_pos) : Inv (read_advanced s count) := by
  unfold Inv at *
  unfold read_advanced
  split <;> dsimp only <;> omega

theorem written_inv (s : CircularBuffer) (data : List Byte) (n : Nat) (hC : 0 < s.impl.length)
    (hs : Inv s) (hn : n ≤ write_count s) (hd : n ≤ data.length) :
    Inv (written s data n) ∧ (written s data n).impl.length = s.impl.length := by
  have h1 := write_count_le_free s
  have h2 := write_ptr_add_write_count s hC
  have hlen : (memcpy s.impl (write_ptr s) data n).length = s.impl.length :=
    memcpy_length _ _ _ _ (by omega) (by omega)
  obtain ⟨hs1, hs2⟩ := hs
  refine ⟨⟨?_, ?_⟩, hlen⟩
  · show s.read_pos ≤ s.write_pos + n
    omega
  · show s.write_pos + n ≤ s.read_pos + (memcpy s.impl (write_ptr s) data n).length
    omega

/-- The value `write_some` returns from a state satisfying the cursor inequalities. -/
theorem write_some_eq (s : CircularBuffer) (data : List Byte) (size : Nat)
    (hC : 0 < s.impl.length) (hs : Inv s) (hd : size ≤ data.length) :
    write_some s data size = .ok
      (written s data (min size (write_count s)), min size (write_count s)) := by
  have h := written_inv s data (min size (write_count s)) hC hs (by omega) (by omega)
  unfold write_some
  simp only
  rw [did_write_eq _ _ (by exact h.1.2)]
  rfl

/-- The value `read_some` returns from a state satisfying the cursor inequalities. -/
theorem read_some_eq (s : CircularBuffer) (size : Nat) (hs : Inv s) :
    read_some s size = .ok
      (read_advanced s (min size (read_count s)),
       memread s.impl (read_ptr s) (min size (read_count s)),
       min size (read_count s)) := by
  have h1 := read_count_le_unread s
  unfold read_some
  simp only
  rw [did_read_eq _ _ (by unfold Inv at hs; omega)]

end CircularBuffer

theorem min_split (a u m : Nat) (h1 : a ≤ u) (h2 : a ≤ m) :
    a + min (u - a) (m - a) = min u m := by
  omega

theorem min_split_free (n bs pos C w r : Nat) (h1 : n ≤ bs - pos) (h2 : n ≤ C - (w - r))
    (h3 : r ≤ w) :
    n + min (bs - (pos + n)) (C - (w + n - r)) = min (bs - pos) (C - (w - r)) := by
  omega

theorem min_min_right (rc u c m : Nat) (hrc : rc = min u c) (h1 : c ≤ u) (h2 : c ≤ m) :
    min rc m = c := by
  omega

theorem min_min_left (rc u c m : Nat) (hrc : rc = min u c) (h1 : u ≤ c) (h2 : u ≤ m) :
    min rc m = u := by
  omega

theorem min_eq_zero_of_le (a b c : Nat) (h : a ≤ c) (hc : c = 0) : min a b = 0 := by
  omega

theorem mod_cases (x C : Nat) (h : x < 2 * C) :
    (x < C ∧ x % C = x) ∨ (C ≤ x ∧ x % C = x - C) := by
  by_cases hx : x < C
  · exact Or.inl ⟨hx, Nat.mod_eq_of_lt hx⟩
  · refine Or.inr ⟨by omega, ?_⟩
    rw [Nat.mod_eq_sub_mod (by omega), Nat.mod_eq_of_lt (by omega)]

/-- The bytes of the storage after `memcpy(dst + off, src, n)`. -/
theorem memcpy_getElem? (dst src : List Byte) (off n k : Nat) (h1 : off + n ≤ dst.length)
    (h2 : n ≤ src.length) :
    (memcpy dst off src n)[k]? =
      if off ≤ k ∧ k < off + n then src[k - off]? else dst[k]? := by
  have hmin : min off dst.length = off := by omega
  have hmin2 : min n src.length = n := by omega
  unfold memcpy
  rw [List.append_assoc, List.getElem?_append, List.getElem?_append]
  simp only [List.length_take, List.getElem?_take, hmin, hmin2]
  by_cases hk : k < off
  · have h3 : ¬ (off ≤ k ∧ k < off + n) := by omega
    simp only [hk, if_true, h3, if_false]
  · by_cases hk2 : k < off + n
    · have h3 : k - off < n := by omega
      have h4 : off ≤ k ∧ k < off + n := by omega
      simp only [hk, if_false, h3, if_true, h4, and_self]
    · have h3 : ¬ (k - off < n) := by omega
      have h4 : ¬ (off ≤ k ∧ k < off + n) := by omega
      simp only [hk, if_false, h3, h4]
      rw [List.getElem?_drop]
      congr 1
      omega

theorem memread_getElem? (src : List Byte) (off n k : Nat) :
    (memread src off n)[k]? = if k < n then src[off + k]? else none := by
  unfold memread
  rw [List.getElem?_take, List.getElem?_drop]

theorem memread_add (src : List Byte) (off n m : Nat) :
    memread src off (n + m) = memread src off n ++ memread src (off + n) m := by
  unfold memread
  rw [List.take_add, List.drop_drop]

namespace CircularBuffer

theorem unread_length (s : CircularBuffer) : (unread s).length = s.write_pos - s.read_pos := by
  simp [unread]

theorem unread_getElem? (s : CircularBuffer) (i : Nat) :
    (unread s)[i]? = if i < s.write_pos - s.read_pos then
      some (s.impl.getD ((s.read_pos + i) % s.impl.length) 0) else none := by
  unfold unread
  rw [List.getElem?_map]
  by_cases hi : i < s.write_pos - s.read_pos
  · rw [List.getElem?_range hi]
    simp only [hi, if_true, Option.map_some']
  · rw [List.getElem?_eq_none (by simpa using hi)]
    simp only [hi, if_false, Option.map_none']

theorem read_advanced_unread_count (s : CircularBuffer) (count : Nat)
    (h : s.read_pos + count ≤ s.write_pos) :
    (read_advanced s count).write_pos - (read_advanced s count).read_pos
      = s.write_pos - s.read_pos - count := by
  unfold read_advanced
  split <;> dsimp only <;> omega

theorem valid_inv (s : CircularBuffer) (h : Valid s) : Inv s := ⟨h.2.1, h.2.2.1⟩

theorem valid_read_advanced (s : CircularBuffer) (count : Nat) (hs : Valid s)
    (h : s.read_pos + count ≤ s.write_pos) : Valid (read_advanced s count) := by
  unfold Valid at *
  unfold read_advanced
  split <;> dsimp only <;> omega

theorem valid_written (s : CircularBuffer) (data : List Byte) (n : Nat) (hs : Valid s)
    (hn : n ≤ write_count s) (hd : n ≤ data.length) : Valid (written s data n) := by
  have h := written_inv s data n hs.1 (valid_inv s hs) hn hd
  obtain ⟨h1, h2⟩ := h
  refine ⟨by rw [h2]; exact hs.1, h1.1, h1.2, ?_⟩
  rw [h2]
  exact hs.2.2.2

/-- Advancing the read cursor by `count` drops the `count` oldest unread bytes. -/
theorem unread_read_advanced (s : CircularBuffer) (count : Nat)
    (h : s.read_pos + count ≤ s.write_pos) :
    unread (read_advanced s count) = (unread s).drop count := by
  apply List.ext_getElem?
  intro i
  rw [List.getElem?_drop, unread_getElem?, unread_getElem?, read_advanced_unread_count s count h,
    read_advanced_impl]
  by_cases hi : i < s.write_pos - s.read_pos - count
  · have hi2 : count + i < s.write_pos - s.read_pos := by omega
    simp only [hi, hi2, if_true]
    congr 2
    unfold read_advanced
    split
    · dsimp only
      rw [Nat.mod_eq_sub_mod (show s.read_pos + (count + i) ≥ s.impl.length by omega)]
      congr 1
      omega
    · dsimp only
      congr 1
      omega
  · have hi2 : ¬ (count + i < s.write_pos - s.read_pos) := by omega
    simp only [hi, hi2, if_false]

/-- The bytes a read of `n` bytes copies out are the `n` oldest unread bytes. -/
theorem memread_eq_unread_take (s : CircularBuffer) (n : Nat) (hs : Valid s)
    (hn : n ≤ read_count s) : memread s.impl (read_ptr s) n = (unread s).take n := by
  obtain ⟨hC, h1, h2, h3⟩ := hs
  have hrc : read_count s ≤ min (s.write_pos - s.read_pos) (s.impl.length - s.read_pos) := by
    unfold read_count; rw [Nat.mod_eq_of_lt h3]
  apply List.ext_getElem?
  intro i
  rw [memread_getElem?, List.getElem?_take, unread_getElem?]
  unfold read_ptr
  rw [Nat.mod_eq_of_lt h3]
  by_cases hi : i < n
  · have hi2 : i < s.write_pos - s.read_pos := by omega
    have hi3 : s.read_pos + i < s.impl.length := by omega
    simp only [hi, hi2, if_true]
    rw [Nat.mod_eq_of_lt hi3, List.getD_eq_getElem?_getD, List.getElem?_eq_getElem hi3]
    rfl
  · simp only [hi, if_false]

/-- Storing `n` bytes in the writable contiguous region appends them to the unread
bytes. -/
theorem unread_written (s : CircularBuffer) (data : List Byte) (n : Nat) (hs : Valid s)
    (hn : n ≤ write_count s) (hd : n ≤ data.length) :
    unread (written s data n) = unread s ++ data.take n := by
  obtain ⟨hC, h1, h2, h3⟩ := hs
  have hf := write_count_le_free s
  have hp := write_ptr_add_write_count s hC
  have hlen : (memcpy s.impl (write_ptr s) data n).length = s.impl.length :=
    memcpy_length _ _ _ _ (by omega) (by omega)
  apply List.ext_getElem?
  intro i
  rw [unread_getElem?, List.getElem?_append, unread_length, unread_getElem?, List.getElem?_take]
  show (if i < s.write_pos + n - s.read_pos then
      some ((memcpy s.impl (write_ptr s) data n).getD
        ((s.read_pos + i) % (memcpy s.impl (write_ptr s) data n).length) 0) else none) = _
  rw [hlen, List.getD_eq_getElem?_getD,
    memcpy_getElem? _ _ _ _ _ (by omega) (by omega)]
  unfold write_ptr at *
  by_cases hi : i < s.write_pos + n - s.read_pos
  · simp only [hi, if_true]
    have hw := mod_cases s.write_pos s.impl.length (by omega)
    have hk := mod_cases (s.read_pos + i) s.impl.length (by omega)
    by_cases hiu : i < s.write_pos - s.read_pos
    · have hnot : ¬ (s.write_pos % s.impl.length ≤ (s.read_pos + i) % s.impl.length ∧
          (s.read_pos + i) % s.impl.length < s.write_pos % s.impl.length + n) := by
        rcases hw with ⟨_, e1⟩ | ⟨_, e1⟩ <;> rcases hk with ⟨_, e2⟩ | ⟨_, e2⟩ <;>
          rw [e1, e2] <;> omega
      simp only [hnot, if_false, hiu, if_true, List.getD_eq_getElem?_getD]
    · have hyes : s.write_pos % s.impl.length ≤ (s.read_pos + i) % s.impl.length ∧
          (s.read_pos + i) % s.impl.length < s.write_pos % s.impl.length + n := by
        rcases hw with ⟨_, e1⟩ | ⟨_, e1⟩ <;> rcases hk with ⟨_, e2⟩ | ⟨_, e2⟩ <;>
          rw [e1, e2] <;> omega
      have hidx : (s.read_pos + i) % s.impl.length - s.write_pos % s.impl.length
          = i - (s.write_pos - s.read_pos) := by
        rcases hw with ⟨_, e1⟩ | ⟨_, e1⟩ <;> rcases hk with ⟨_, e2⟩ | ⟨_, e2⟩ <;>
          rw [e1, e2] <;> omega
      have hlt : i - (s.write_pos - s.read_pos) < n := by omega
      have hlt2 : i - (s.write_pos - s.read_pos) < data.length := by omega
      simp only [hyes, and_self, if_true, hiu, if_false, hidx, hlt]
      rw [List.getElem?_eq_getElem hlt2]
      rfl
  · have hiu : ¬ (i < s.write_pos - s.read_pos) := by omega
    have hlt : ¬ (i - (s.write_pos - s.read_pos) < n) := by omega
    simp only [hi, if_false, hiu, hlt]

/-- One iteration of `copy_from` when the source stores `bytes`, at most the writable
contiguous region. -/
theorem copy_from_step {σ : Type} (inp : IInputStream σ) (fuel : Nat) (s : CircularBuffer)
    (i i' : σ) (bytes : List Byte) (hC : 0 < s.impl.length) (hs : Inv s)
    (hwc : write_count s ≠ 0)
    (hr : inp.read_some i (write_count s) = .ok (i', bytes))
    (hb : bytes.length ≤ write_count s) :
    copy_from inp (fuel + 1) s i =
      if bytes.length = 0 then some (.ok (written s bytes bytes.length, i'))
      else copy_from inp fuel (written s bytes bytes.length) i' := by
  have h := written_inv s bytes bytes.length hC hs hb (le_refl _)
  rw [copy_from]
  simp only [hwc, if_false, hr]
  rw [did_write_eq _ _ (by exact h.1.2)]
  rfl

/-- One iteration of the `copy_to` loop when the sink accepts `count` bytes, at most the
offered ones. -/
theorem copy_to_loop_step {σ : Type} (out : IOutputStream σ) (fuel : Nat) (s : CircularBuffer)
    (o o' : σ) (max_count total_count count : Nat) (hs : Inv s)
    (hrc : min (read_count s) max_count ≠ 0)
    (hw : out.write_some o (memread s.impl (read_ptr s) (min (read_count s) max_count))
      (min (read_count s) max_count) = .ok (o', count))
    (hb : count ≤ min (read_count s) max_count) :
    copy_to_loop out (fuel + 1) s o max_count total_count =
      if count = 0 then some (.ok (read_advanced s count, o', total_count + count))
      else copy_to_loop out fuel (read_advanced s count) o' (max_count - count)
        (total_count + count) := by
  have h1 := read_count_le_unread s
  rw [copy_to_loop]
  simp only [hrc, if_false, hw]
  rw [did_read_eq _ _ (by unfold Inv at hs; omega)]

theorem copy_from_zero {σ : Type} (inp : IInputStream σ) (fuel : Nat) (s : CircularBuffer)
    (i : σ) (hwc : write_count s = 0) : copy_from inp (fuel + 1) s i = some (.ok (s, i)) := by
  rw [copy_from]
  simp only [hwc, if_true]

theorem copy_to_loop_zero {σ : Type} (out : IOutputStream σ) (fuel : Nat) (s : CircularBuffer)
    (o : σ) (max_count total_count : Nat) (hrc : min (read_count s) max_count = 0) :
    copy_to_loop out (fuel + 1) s o max_count total_count = some (.ok (s, o, total_count)) := by
  rw [copy_to_loop]
  simp only [hrc, if_true]

/-- Whatever the fuel, a `copy_from` that returns leaves the cursor inequalities and the
capacity in place. -/
theorem copy_from_inv {σ : Type} (inp : IInputStream σ) (hb : inp.Bounded) :
    ∀ (fuel : Nat) (s : CircularBuffer) (i : σ) (s' : CircularBuffer) (i' : σ),
      0 < s.impl.length → Inv s → copy_from inp fuel s i = some (.ok (s', i')) →
      Inv s' ∧ s'.impl.length = s.impl.length := by
  intro fuel
  induction fuel with
  | zero => intro s i s' i' _ _ h; simp [copy_from] at h
  | succ fuel ih =>
    intro s i s' i' hC hs h
    by_cases hwc : write_count s = 0
    · rw [copy_from_zero inp fuel s i hwc] at h
      cases h
      exact ⟨hs, rfl⟩
    · obtain ⟨i1, bytes, hr, hlen⟩ := hb i (write_count s)
      have hw := written_inv s bytes bytes.length hC hs hlen (le_refl _)
      rw [copy_from_step inp fuel s i i1 bytes hC hs hwc hr hlen] at h
      split at h
      · cases h
        exact hw
      · have := ih _ _ _ _ (by rw [hw.2]; exact hC) hw.1 h
        exact ⟨this.1, by rw [this.2, hw.2]⟩

/-- With more fuel than free bytes `copy_from` returns. -/
theorem copy_from_total {σ : Type} (inp : IInputStream σ) (hb : inp.Bounded) :
    ∀ (fuel : Nat) (s : CircularBuffer) (i : σ),
      0 < s.impl.length → Inv s → s.impl.length - (s.write_pos - s.read_pos) < fuel →
      ∃ s' i', copy_from inp fuel s i = some (.ok (s', i')) := by
  intro fuel
  induction fuel with
  | zero => intro s i _ _ h; omega
  | succ fuel ih =>
    intro s i hC hs hf
    by_cases hwc : write_count s = 0
    · exact ⟨s, i, copy_from_zero inp fuel s i hwc⟩
    · obtain ⟨i1, bytes, hr, hlen⟩ := hb i (write_count s)
      have hw := written_inv s bytes bytes.length hC hs hlen (le_refl _)
      have h1 := write_count_le_free s
      rw [copy_from_step inp fuel s i i1 bytes hC hs hwc hr hlen]
      split
      · exact ⟨_, _, rfl⟩
      · apply ih _ _ (by rw [hw.2]; exact hC) hw.1
        rw [hw.2]
        show s.impl.length - (s.write_pos + bytes.length - s.read_pos) < fuel
        have := hs.1
        omega

/-- Whatever the fuel, a `copy_to` loop that returns leaves the cursor inequalities and
the storage in place. -/
theorem copy_to_loop_inv {σ : Type} (out : IOutputStream σ) (hb : out.Bounded) :
    ∀ (fuel : Nat) (s : CircularBuffer) (o : σ) (max_count total_count : Nat)
      (s' : CircularBuffer) (o' : σ) (total : Nat),
      Inv s → copy_to_loop out fuel s o max_count total_count = some (.ok (s', o', total)) →
      Inv s' ∧ s'.impl = s.impl := by
  intro fuel
  induction fuel with
  | zero => intro s o m t s' o' total _ h; simp [copy_to_loop] at h
  | succ fuel ih =>
    intro s o m t s' o' total hs h
    by_cases hrc : min (read_count s) m = 0
    · rw [copy_to_loop_zero out fuel s o m t hrc] at h
      cases h
      exact ⟨hs, rfl⟩
    · obtain ⟨o1, count, hw, hle⟩ := hb o (memread s.impl (read_ptr s) (min (read_count s) m))
        (min (read_count s) m)
      have h1 := read_count_le_unread s
      have hadv := read_advanced_inv s count hs (by have := hs.1; omega)
      rw [copy_to_loop_step out fuel s o o1 m t count hs hrc hw hle] at h
      split at h
      · cases h
        exact ⟨hadv, read_advanced_impl s count⟩
      · have := ih _ _ _ _ _ _ _ hadv h
        exact ⟨this.1, by rw [this.2, read_advanced_impl]⟩

/-- With more fuel than unread bytes the `copy_to` loop returns. -/
theorem copy_to_loop_total {σ : Type} (out : IOutputStream σ) (hb : out.Bounded) :
    ∀ (fuel : Nat) (s : CircularBuffer) (o : σ) (max_count total_count : Nat),
      Inv s → s.write_pos - s.read_pos < fuel →
      ∃ s' o' total, copy_to_loop out fuel s o max_count total_count
        = some (.ok (s', o', total)) := by
  intro fuel
  induction fuel with
  | zero => intro s o m t _ h; omega
  | succ fuel ih =>
    intro s o m t hs hf
    by_cases hrc : min (read_count s) m = 0
    · exact ⟨s, o, t, copy_to_loop_zero out fuel s o m t hrc⟩
    · obtain ⟨o1, count, hw, hle⟩ := hb o (memread s.impl (read_ptr s) (min (read_count s) m))
        (min (read_count s) m)
      have h1 := read_count_le_unread s
      have hle2 : s.read_pos + count ≤ s.write_pos := by have := hs.1; omega
      have hadv := read_advanced_inv s count hs hle2
      rw [copy_to_loop_step out fuel s o o1 m t count hs hrc hw hle]
      split
      · exact ⟨_, _, _, rfl⟩
      · apply ih _ _ _ _ hadv
        rw [read_advanced_unread_count s count hle2]
        omega

theorem valid_create (C : Nat) (hC : 0 < C) : Valid (create C) := by
  simp [Valid, create, hC]

theorem unread_create (C : Nat) : unread (create C) = [] := by
  simp [unread, create]

/-- Any sequence of well-formed calls runs to completion from a valid state, and the
bytes accepted after the unread ones are the bytes returned followed by the bytes still
unread. -/
theorem run_fifo : ∀ (calls : List Call) (s : CircularBuffer), Valid s →
    (∀ c ∈ calls, c.WellFormed) →
    ∃ s' events, run s calls = .ok (s', events) ∧ Valid s' ∧
      s'.impl.length = s.impl.length ∧
      unread s ++ accepted events = returned events ++ unread s' := by
  intro calls
  induction calls with
  | nil =>
    intro s hs _
    exact ⟨s, [], rfl, hs, rfl, by simp [accepted, returned]⟩
  | cons c calls ih =>
    intro s hs hwf
    have hwf' : ∀ c ∈ calls, c.WellFormed := fun c hc => hwf c (List.mem_cons_of_mem _ hc)
    cases c with
    | write_some data size =>
      have hd : size ≤ data.length := hwf _ (List.mem_cons_self _ _)
      have hn : min size (write_count s) ≤ write_count s := Nat.min_le_right _ _
      have hn2 : min size (write_count s) ≤ data.length := by omega
      have hv := valid_written s data _ hs hn hn2
      have hl := (written_inv s data _ hs.1 (valid_inv s hs) hn hn2).2
      obtain ⟨s', events, hrun, hv', hlen, hfifo⟩ := ih _ hv hwf'
      refine ⟨s', Event.write_some data size (min size (write_count s)) :: events, ?_, hv',
        by rw [hlen, hl], ?_⟩
      · rw [run, write_some_eq s data size hs.1 (valid_inv s hs) hd]
        simp only [hrun]
      · rw [unread_written s data _ hs hn hn2] at hfifo
        simp only [accepted, returned]
        rw [← List.append_assoc]
        exact hfifo
    | read_some size =>
      have hn : min size (read_count s) ≤ read_count s := Nat.min_le_right _ _
      have hu := read_count_le_unread s
      have hle : s.read_pos + min size (read_count s) ≤ s.write_pos := by
        have := hs.2.1; omega
      have hv := valid_read_advanced s _ hs hle
      obtain ⟨s', events, hrun, hv', hlen, hfifo⟩ := ih _ hv hwf'
      refine ⟨s', Event.read_some size (memread s.impl (read_ptr s) (min size (read_count s)))
        (min size (read_count s)) :: events, ?_, hv', by rw [hlen, read_advanced_impl], ?_⟩
      · rw [run, read_some_eq s size (valid_inv s hs)]
        simp only [hrun]
      · rw [unread_read_advanced s _ hle] at hfifo
        simp only [accepted, returned]
        rw [memread_eq_unread_take s _ hs hn, List.take_take, Nat.min_self, List.append_assoc,
          ← hfifo, ← List.append_assoc, List.take_append_drop]

/-- Reads from a state whose unread bytes do not straddle the end of storage return the
unread bytes in order, as many as the sizes ask for. -/
theorem run_reads : ∀ (sizes : List Nat) (s : CircularBuffer), Valid s →
    s.write_pos ≤ s.impl.length →
    ∃ s' events, run s (sizes.map Call.read_some) = .ok (s', events) ∧
      events.length = sizes.length ∧ returned events = (unread s).take sizes.sum := by
  intro sizes
  induction sizes with
  | nil =>
    intro s _ _
    exact ⟨s, [], rfl, rfl, by simp [returned]⟩
  | cons size sizes ih =>
    intro s hs hw
    obtain ⟨hC, h1, h2, h3⟩ := hs
    have hrc : read_count s = s.write_pos - s.read_pos := by
      unfold read_count; rw [Nat.mod_eq_of_lt h3]; omega
    have hn : min size (read_count s) ≤ read_count s := Nat.min_le_right _ _
    have hle : s.read_pos + min size (read_count s) ≤ s.write_pos := by omega
    have hv := valid_read_advanced s _ ⟨hC, h1, h2, h3⟩ hle
    have hw' : (read_advanced s (min size (read_count s))).write_pos
        ≤ (read_advanced s (min size (read_count s))).impl.length := by
      rw [read_advanced_impl]
      unfold read_advanced
      split <;> dsimp only <;> omega
    obtain ⟨s', events, hrun, hlen, hret⟩ := ih _ hv hw'
    refine ⟨s', Event.read_some size (memread s.impl (read_ptr s) (min size (read_count s)))
      (min size (read_count s)) :: events, ?_, by simp [hlen], ?_⟩
    · simp only [List.map_cons]
      rw [run, read_some_eq s size ⟨h1, h2⟩]
      simp only [hrun]
    · simp only [returned, List.sum_cons]
      rw [hret, memread_eq_unread_take s _ ⟨hC, h1, h2, h3⟩ hn, List.take_take, Nat.min_self,
        unread_read_advanced s _ hle, List.take_add]
      have hlen := unread_length s
      by_cases hsz : size ≤ read_count s
      · rw [Nat.min_eq_left hsz]
      · rw [Nat.min_eq_right (by omega), List.take_of_length_le (by omega),
          List.take_of_length_le (l := unread s) (by omega), List.drop_of_length_le (by omega),
          List.drop_of_length_le (by omega)]

/-- Chunks that fit a buffer whose read cursor is at 0 are each accepted whole, and the
reads that follow return the unread bytes and the chunks. -/
theorem run_writes_reads : ∀ (chunks : List (List Byte)) (s : CircularBuffer), Valid s →
    s.read_pos = 0 → s.write_pos + chunks.flatten.length ≤ s.impl.length →
    ∀ sizes : List Nat,
    ∃ s' reads, run s (chunks.map (fun c => Call.write_some c c.length)
        ++ sizes.map Call.read_some)
        = .ok (s', chunks.map (fun c => Event.write_some c c.length c.length) ++ reads) ∧
      reads.length = sizes.length ∧
      returned reads = (unread s ++ chunks.flatten).take sizes.sum := by
  intro chunks
  induction chunks with
  | nil =>
    intro s hs _ hw sizes
    obtain ⟨s', events, hrun, hlen, hret⟩ := run_reads sizes s hs (by simpa using hw)
    exact ⟨s', events, by simpa using hrun, hlen, by simpa using hret⟩
  | cons c chunks ih =>
    intro s hs hr hw sizes
    simp only [List.flatten_cons, List.length_append] at hw
    have hwc : c.length ≤ write_count s := by
      unfold write_count
      rcases mod_cases s.write_pos s.impl.length (by have := hs.1; omega) with ⟨_, e⟩ | ⟨_, e⟩ <;>
        rw [e] <;> omega
    have hmin : min c.length (write_count s) = c.length := Nat.min_eq_left hwc
    have hv := valid_written s c c.length hs hwc (le_refl _)
    have hl := (written_inv s c c.length hs.1 (valid_inv s hs) hwc (le_refl _)).2
    obtain ⟨s', reads, hrun, hlen, hret⟩ := ih (written s c c.length) hv hr
      (by rw [hl]; show s.write_pos + c.length + _ ≤ _; omega) sizes
    refine ⟨s', reads, ?_, hlen, ?_⟩
    · simp only [List.map_cons, List.cons_append]
      rw [run, write_some_eq s c c.length hs.1 (valid_inv s hs) (le_refl _), hmin]
      simp only [hrun]
    · rw [hret, unread_written s c c.length hs hwc (le_refl _), List.take_length]
      simp only [List.flatten_cons, List.append_assoc]

theorem read_count_valid (s : CircularBuffer) (hs : Valid s) :
    read_count s = min (s.write_pos - s.read_pos) (s.impl.length - s.read_pos) := by
  unfold read_count; rw [Nat.mod_eq_of_lt hs.2.2.2]

/-- Into a sink that accepts everything, the `copy_to` loop moves the
`min(unread, max_count)` oldest unread bytes. -/
theorem copy_to_loop_accepts_all {σ : Type} (out : IOutputStream σ) (hacc : out.AcceptsAll) :
    ∀ (fuel : Nat) (s : CircularBuffer) (o : σ) (max_count total_count : Nat),
      Valid s → s.write_pos - s.read_pos < fuel →
      ∃ s' o', copy_to_loop out fuel s o max_count total_count
          = some (.ok (s', o', total_count + min (s.write_pos - s.read_pos) max_count)) ∧
        (∀ contents : σ → List Byte, out.AppendsTo contents →
          contents o' = contents o ++
            (unread s).take (min (s.write_pos - s.read_pos) max_count)) ∧
        unread s' = (unread s).drop (min (s.write_pos - s.read_pos) max_count) ∧
        s'.write_pos - s'.read_pos
          = s.write_pos - s.read_pos - min (s.write_pos - s.read_pos) max_count ∧
        s'.impl = s.impl ∧ Valid s' := by
  intro fuel
  induction fuel with
  | zero => intro s o m t _ h; omega
  | succ fuel ih =>
    intro s o m t hs hf
    have hrc := read_count_valid s hs
    obtain ⟨hC, h1, h2, h3⟩ := hs
    by_cases hz : min (read_count s) m = 0
    · have h0 : min (s.write_pos - s.read_pos) m = 0 := by rw [hrc] at hz; omega
      refine ⟨s, o, ?_, ?_, ?_, ?_, rfl, ⟨hC, h1, h2, h3⟩⟩
      · rw [copy_to_loop_zero out fuel s o m t hz, h0]; rfl
      · intro contents _; rw [h0]; simp
      · rw [h0]; simp
      · rw [h0]; simp
    · obtain ⟨o1, hw⟩ := hacc o (memread s.impl (read_ptr s) (min (read_count s) m))
        (min (read_count s) m)
      have hn : min (read_count s) m ≤ read_count s := Nat.min_le_left _ _
      have hu := read_count_le_unread s
      have hle : s.read_pos + min (read_count s) m ≤ s.write_pos := by omega
      have hv := valid_read_advanced s _ ⟨hC, h1, h2, h3⟩ hle
      have hcnt := read_advanced_unread_count s _ hle
      obtain ⟨s', o', hrun, hc', hu', hcnt', himpl', hv'⟩ :=
        ih (read_advanced s (min (read_count s) m))
          o1 (m - min (read_count s) m) (t + min (read_count s) m) hv (by rw [hcnt]; omega)
      have hsum : min (read_count s) m + min (s.write_pos - s.read_pos - min (read_count s) m)
          (m - min (read_count s) m) = min (s.write_pos - s.read_pos) m :=
        min_split _ _ _ (by omega) (Nat.min_le_right _ _)
      rw [hcnt] at hrun hc' hu' hcnt'
      rw [unread_read_advanced s _ hle] at hc' hu'
      refine ⟨s', o', ?_, ?_, ?_, ?_, by rw [himpl', read_advanced_impl], hv'⟩
      · rw [copy_to_loop_step out fuel s o o1 m t _ ⟨h1, h2⟩ hz hw (le_refl _)]
        simp only [hz, if_false]
        rw [hrun, Nat.add_assoc, hsum]
      · intro contents hcont
        rw [hc' contents hcont, hcont _ _ _ _ _ hw,
          memread_eq_unread_take s _ ⟨hC, h1, h2, h3⟩ hn, List.take_take,
          Nat.min_self, List.append_assoc, ← List.take_add, hsum]
      · rw [hu', List.drop_drop, hsum]
      · rw [hcnt']; omega

end CircularBuffer

theorem VectorOutputStream.stream_bounded : VectorOutputStream.stream.Bounded := by
  intro o data n
  exact ⟨_, _, rfl, le_refl _⟩

theorem VectorOutputStream.stream_accepts_all : VectorOutputStream.stream.AcceptsAll := by
  intro o data n
  exact ⟨_, rfl⟩

theorem VectorOutputStream.stream_appends_to :
    VectorOutputStream.stream.AppendsTo (fun v => v.out) := by
  intro o data n o' count h
  simp only [VectorOutputStream.stream, VectorOutputStream.write_some, Except.ok.injEq,
    Prod.mk.injEq] at h
  obtain ⟨h1, h2⟩ := h
  subst h1 h2
  rfl

/-- What a `MemoryInputStream` with its cursor inside the buffer hands to a caller asking
for `size` bytes. -/
theorem MemoryInputStream.stream_read_some (m : MemoryInputStream) (hm : m.Valid)
    (size : Nat) :
    MemoryInputStream.stream.read_some m size = .ok
      ({ m with in_position := m.in_position + min size (m.buffer_size - m.in_position) },
       memread m.buffer m.in_position (min size (m.buffer_size - m.in_position))) := by
  simp only [MemoryInputStream.stream, MemoryInputStream.read_some, hm.1, if_true]
  by_cases h : min size (m.buffer_size - m.in_position) > 0
  · simp only [h, if_true]
  · have h0 : min size (m.buffer_size - m.in_position) = 0 := by omega
    simp only [h0, memread, List.take_zero, gt_iff_lt, Nat.lt_irrefl, if_false]

namespace CircularBuffer

theorem write_count_eq_zero (s : CircularBuffer) (hs : Valid s) (h : write_count s = 0) :
    s.impl.length - (s.write_pos - s.read_pos) = 0 := by
  have := Nat.mod_lt s.write_pos hs.1
  unfold write_count at h
  omega

/-- From a flat memory stream `copy_from` moves `min(remaining, free)` bytes, which
follow the unread ones. -/
theorem copy_from_memory :
    ∀ (fuel : Nat) (s : CircularBuffer) (m : MemoryInputStream), Valid s → m.Valid →
      s.impl.length - (s.write_pos - s.read_pos) < fuel →
      ∃ s' m', copy_from MemoryInputStream.stream fuel s m = some (.ok (s', m')) ∧
        m'.in_position = m.in_position +
          min (m.buffer_size - m.in_position) (s.impl.length - (s.write_pos - s.read_pos)) ∧
        m'.buffer = m.buffer ∧ m'.buffer_size = m.buffer_size ∧
        s'.read_pos = s.read_pos ∧
        s'.write_pos = s.write_pos +
          min (m.buffer_size - m.in_position) (s.impl.length - (s.write_pos - s.read_pos)) ∧
        s'.impl.length = s.impl.length ∧
        unread s' = unread s ++ memread m.buffer m.in_position
          (min (m.buffer_size - m.in_position) (s.impl.length - (s.write_pos - s.read_pos))) ∧
        Valid s' := by
  intro fuel
  induction fuel with
  | zero => intro s m _ _ h; omega
  | succ fuel ih =>
    intro s m hs hm hf
    by_cases hwc : write_count s = 0
    · have hfree := write_count_eq_zero s hs hwc
      have h0 : min (m.buffer_size - m.in_position)
          (s.impl.length - (s.write_pos - s.read_pos)) = 0 := by omega
      rw [h0]
      refine ⟨s, m, copy_from_zero _ fuel s m hwc, rfl, rfl, rfl, rfl, rfl, rfl, ?_, hs⟩
      simp [memread]
    · have hfree := write_count_le_free s
      have h1 := hs.2.1
      have hm1 := hm.1
      have hm2 := hm.2
      obtain ⟨n, hndef⟩ : ∃ n, n = min (write_count s) (m.buffer_size - m.in_position) :=
        ⟨_, rfl⟩
      obtain ⟨bytes, hbdef⟩ : ∃ b, b = memread m.buffer m.in_position n := ⟨_, rfl⟩
      obtain ⟨m1, hm1def⟩ : ∃ m1 : MemoryInputStream,
          m1 = { m with in_position := m.in_position + n } := ⟨_, rfl⟩
      have hr : MemoryInputStream.stream.read_some m (write_count s) = .ok (m1, bytes) := by
        rw [hm1def, hbdef, hndef]
        exact MemoryInputStream.stream_read_some m hm (write_count s)
      have hnle : n ≤ write_count s := by omega
      have hlen : bytes.length = n := by
        rw [hbdef]; exact memread_length _ _ _ (by omega)
      have hstep := copy_from_step MemoryInputStream.stream fuel s m m1 bytes hs.1
        (valid_inv s hs) hwc hr (by omega)
      rw [hlen] at hstep
      have hv := valid_written s bytes n hs hnle (by omega)
      have hu := unread_written s bytes n hs hnle (by omega)
      have hl := (written_inv s bytes n hs.1 (valid_inv s hs) hnle (by omega)).2
      rw [List.take_of_length_le (by omega)] at hu
      by_cases hn : n = 0
      · have h0 : min (m.buffer_size - m.in_position)
            (s.impl.length - (s.write_pos - s.read_pos)) = 0 := by omega
        rw [h0]
        simp only [hn, if_true] at hstep
        refine ⟨_, _, hstep, by rw [hm1def, hn], by rw [hm1def], by rw [hm1def], rfl,
          by rw [← hn]; rfl, by rw [← hn]; exact hl, ?_, by rw [← hn]; exact hv⟩
        rw [← hn, hu, hbdef]
      · simp only [hn, if_false] at hstep
        have hm' : m1.Valid := by
          rw [hm1def]
          exact ⟨by show m.in_position + n ≤ m.buffer_size; omega, hm.2⟩
        have hw1 : (written s bytes n).write_pos = s.write_pos + n := rfl
        have hr1 : (written s bytes n).read_pos = s.read_pos := rfl
        have hp1 : m1.in_position = m.in_position + n := by rw [hm1def]
        have hb1 : m1.buffer = m.buffer := by rw [hm1def]
        have hs1 : m1.buffer_size = m.buffer_size := by rw [hm1def]
        obtain ⟨s', m', hrun, hm2', hb2, hbs2, hr2, hw2, hl2, hu2, hv2⟩ :=
          ih (written s bytes n) m1 hv hm' (by rw [hl, hw1, hr1]; omega)
        rw [hl, hw1, hr1, hp1, hs1] at hm2' hw2 hu2
        rw [hb1] at hu2
        have hsum : n + min (m.buffer_size - (m.in_position + n))
              (s.impl.length - (s.write_pos + n - s.read_pos))
            = min (m.buffer_size - m.in_position)
              (s.impl.length - (s.write_pos - s.read_pos)) :=
          min_split_free _ _ _ _ _ _ (by omega) (by omega) h1
        refine ⟨s', m', by rw [hstep]; exact hrun, ?_, by rw [hb2, hb1], by rw [hbs2, hs1],
          by rw [hr2, hr1], ?_, by rw [hl2, hl], ?_, hv2⟩
        · rw [hm2', ← hsum, Nat.add_assoc]
        · rw [hw2, ← hsum, Nat.add_assoc]
        · rw [hu2, hu, ← hsum, memread_add, List.append_assoc, hbdef]

end CircularBuffer

theorem IOutputStream.logged_write_some {σ : Type} (out : IOutputStream σ)
    (hacc : out.AcceptsAll) (o : σ) (log : List Nat) (data : List Byte) (n : Nat) :
    ∃ o', out.logged.write_some (o, log) data n = .ok ((o', log ++ [n]), n) := by
  obtain ⟨o', ho⟩ := hacc o data n
  exact ⟨o', by simp only [IOutputStream.logged, ho]⟩

namespace CircularBuffer

/-- Draining unread bytes that straddle the end of storage into an all-accepting sink
takes two `write_some` calls: the bytes up to the end of storage, then the rest. -/
theorem copy_to_loop_straddle {σ : Type} (out : IOutputStream σ) (hacc : out.AcceptsAll)
    (s : CircularBuffer) (hs : Valid s) (o : σ) (max_count fuel : Nat)
    (hstr : s.impl.length < s.read_pos + (s.write_pos - s.read_pos))
    (hmax : s.write_pos - s.read_pos ≤ max_count) (hfuel : s.write_pos - s.read_pos < fuel) :
    ∃ s' o', copy_to_loop out.logged fuel s (o, []) max_count 0
      = some (.ok (s', (o', [s.impl.length - s.read_pos, s.write_pos - s.impl.length]),
          s.write_pos - s.read_pos)) := by
  have hv := hs
  obtain ⟨hC, h1, h2, h3⟩ := hs
  obtain ⟨f, rfl⟩ : ∃ f, fuel = f + 1 + 1 + 1 := ⟨fuel - 3, by omega⟩
  have hf1 : s.impl.length - s.read_pos ≤ s.write_pos - s.read_pos := by omega
  have hf2 : s.impl.length - s.read_pos ≤ max_count := by omega
  have hf3 : s.impl.length - s.read_pos ≠ 0 := by omega
  have hf4 : s.write_pos - s.impl.length - 0 ≤ s.impl.length - 0 := by omega
  have hf5 : s.write_pos - s.impl.length - 0
      ≤ max_count - (s.impl.length - s.read_pos) := by omega
  have hf6 : s.write_pos - s.impl.length - 0 ≠ 0 := by omega
  have hf7 : s.write_pos - s.impl.length - 0 - (s.write_pos - s.impl.length - 0) = 0 := by
    omega
  have hf8 : 0 + (s.write_pos - s.impl.length - 0) ≤ s.write_pos - s.impl.length := by omega
  have hf9 : 0 + (s.impl.length - s.read_pos) + (s.write_pos - s.impl.length - 0)
      = s.write_pos - s.read_pos := by omega
  have hf10 : s.write_pos - s.impl.length - 0 = s.write_pos - s.impl.length := by omega
  have hf11 : s.read_pos + (s.impl.length - s.read_pos) = s.impl.length := by omega
  have hf12 : s.write_pos - s.impl.length ≤ 0 + s.impl.length := by omega
  clear hstr hmax hfuel
  -- first iteration
  have hrc1 : min (read_count s) max_count = s.impl.length - s.read_pos :=
    min_min_right _ _ _ _ (read_count_valid s hv) hf1 hf2
  have hz1 : min (read_count s) max_count ≠ 0 := by rw [hrc1]; exact hf3
  obtain ⟨o1, hw1⟩ := IOutputStream.logged_write_some out hacc o []
    (memread s.impl (read_ptr s) (min (read_count s) max_count)) (min (read_count s) max_count)
  have hstep1 := copy_to_loop_step out.logged (f + 1 + 1) s (o, []) _ max_count 0 _ ⟨h1, h2⟩
    hz1 hw1 (le_refl _)
  rw [if_neg hz1, hrc1] at hstep1
  have hs1 : read_advanced s (s.impl.length - s.read_pos)
      = { impl := s.impl, read_pos := 0, write_pos := s.write_pos - s.impl.length } := by
    unfold read_advanced
    rw [if_pos (show s.read_pos + (s.impl.length - s.read_pos) ≥ s.impl.length from
      Nat.le_of_eq hf11.symm), hf11, Nat.sub_self]
  rw [hs1] at hstep1
  clear hs1 hw1 hz1 hrc1
  -- second iteration
  obtain ⟨s1, hs1def⟩ : ∃ s1 : CircularBuffer,
      s1 = { impl := s.impl, read_pos := 0, write_pos := s.write_pos - s.impl.length } :=
    ⟨_, rfl⟩
  rw [← hs1def] at hstep1
  have hi1 : s1.impl = s.impl := by rw [hs1def]
  have hr1 : s1.read_pos = 0 := by rw [hs1def]
  have hww1 : s1.write_pos = s.write_pos - s.impl.length := by rw [hs1def]
  have hv1 : Valid s1 := by
    refine ⟨?_, ?_, ?_, ?_⟩
    · rw [hi1]; exact hC
    · rw [hr1]; exact Nat.zero_le _
    · rw [hr1, hww1, hi1]; exact hf12
    · rw [hr1, hi1]; exact hC
  have hrcs1 := read_count_valid s1 hv1
  rw [hr1, hww1, hi1] at hrcs1
  have hrc2 : min (read_count s1) (max_count - (s.impl.length - s.read_pos))
      = s.write_pos - s.impl.length - 0 :=
    min_min_left _ _ _ _ hrcs1 hf4 hf5
  have hz2 : min (read_count s1) (max_count - (s.impl.length - s.read_pos)) ≠ 0 := by
    rw [hrc2]; exact hf6
  obtain ⟨o2, hw2⟩ := IOutputStream.logged_write_some out hacc o1
    ([] ++ [s.impl.length - s.read_pos])
    (memread s1.impl (read_ptr s1) (min (read_count s1)
      (max_count - (s.impl.length - s.read_pos))))
    (min (read_count s1) (max_count - (s.impl.length - s.read_pos)))
  have hstep2 := copy_to_loop_step out.logged (f + 1) s1
    (o1, [] ++ [s.impl.length - s.read_pos]) _ (max_count - (s.impl.length - s.read_pos))
    (0 + (s.impl.length - s.read_pos)) _ (valid_inv s1 hv1) hz2 hw2 (le_refl _)
  rw [if_neg hz2, hrc2] at hstep2
  clear hw2 hz2 hrc2 hrcs1
  -- third iteration: nothing left
  have hle2 : s1.read_pos + (s.write_pos - s.impl.length - 0) ≤ s1.write_pos := by
    rw [hr1, hww1]; exact hf8
  have hcnt := read_advanced_unread_count s1 (s.write_pos - s.impl.length - 0) hle2
  rw [hr1, hww1] at hcnt
  have hz3 : min (read_count (read_advanced s1 (s.write_pos - s.impl.length - 0)))
      (max_count - (s.impl.length - s.read_pos) - (s.write_pos - s.impl.length - 0)) = 0 :=
    min_eq_zero_of_le _ _ _
      (read_count_le_unread (read_advanced s1 (s.write_pos - s.impl.length - 0)))
      (by rw [hcnt]; exact hf7)
  have hstep3 := copy_to_loop_zero out.logged f
    (read_advanced s1 (s.write_pos - s.impl.length - 0))
    (o2, [] ++ [s.impl.length - s.read_pos] ++ [s.write_pos - s.impl.length - 0])
    (max_count - (s.impl.length - s.read_pos) - (s.write_pos - s.impl.length - 0))
    (0 + (s.impl.length - s.read_pos) + (s.write_pos - s.impl.length - 0)) hz3
  refine ⟨read_advanced s1 (s.write_pos - s.impl.length - 0), o2, ?_⟩
  rw [hstep1, hstep2, hstep3, hf9, hf10]
  rfl

theorem memcpy_zero (dst src : List Byte) (off : Nat) : memcpy dst off src 0 = dst := by
  simp [memcpy]

theorem write_count_valid (s : CircularBuffer) (hs : Valid s) :
    0 < s.impl.length - s.write_pos % s.impl.length := by
  have := Nat.mod_lt s.write_pos hs.1
  omega

theorem getElem?_eq_some_getD (l : List Byte) (k : Nat) (h : k < l.length) :
    l[k]? = some (l.getD k 0) := by
  rw [List.getD_eq_getElem?_getD, List.getElem?_eq_getElem h]
  rfl

/-- A state with the same read cursor and capacity whose unread bytes extend those of `s`
keeps every storage cell of an unread byte of `s`. -/
theorem keeps_of_unread (s s' : CircularBuffer) (hs : Valid s)
    (hr : s'.read_pos = s.read_pos) (hl : s'.impl.length = s.impl.length)
    (extra : List Byte) (hu : unread s' = unread s ++ extra) : KeepsUnread s s' := by
  have hcell : ∀ i, i < s.write_pos - s.read_pos →
      s'.impl[(s.read_pos + i) % s.impl.length]? = s.impl[(s.read_pos + i) % s.impl.length]? := by
    intro i hi
    have hk : (s.read_pos + i) % s.impl.length < s.impl.length := Nat.mod_lt _ hs.1
    have hlen : s'.write_pos - s'.read_pos = s.write_pos - s.read_pos + extra.length := by
      have := congrArg List.length hu
      rw [List.length_append, unread_length, unread_length] at this
      exact this
    have h1 := congrArg (fun l => l[i]?) hu
    simp only at h1
    rw [List.getElem?_append_left (by rw [unread_length]; exact hi), unread_getElem?,
      unread_getElem?, hr, hl] at h1
    have hi' : i < s'.write_pos - s.read_pos := by rw [hr] at hlen; omega
    simp only [hi, hi', if_true] at h1
    rw [getElem?_eq_some_getD _ _ hk, getElem?_eq_some_getD _ _ (by rw [hl]; exact hk)]
    exact h1
  refine ⟨hr, hl, hcell, ?_, extra, hu⟩
  intro k hk i hi hki
  apply hk
  rw [hki]
  exact hcell i hi

/-- Whatever the fuel, a `copy_from` that returns from a valid state leaves a valid state
whose unread bytes extend the old ones. -/
theorem copy_from_extends {σ : Type} (inp : IInputStream σ) (hb : inp.Bounded) :
    ∀ (fuel : Nat) (s : CircularBuffer) (i : σ) (s' : CircularBuffer) (i' : σ),
      Valid s → copy_from inp fuel s i = some (.ok (s', i')) →
      Valid s' ∧ s'.read_pos = s.read_pos ∧ s'.impl.length = s.impl.length ∧
        ∃ extra, unread s' = unread s ++ extra := by
  intro fuel
  induction fuel with
  | zero => intro s i s' i' _ h; simp [copy_from] at h
  | succ fuel ih =>
    intro s i s' i' hs h
    by_cases hwc : write_count s = 0
    · rw [copy_from_zero inp fuel s i hwc] at h
      cases h
      exact ⟨hs, rfl, rfl, [], by simp⟩
    · obtain ⟨i1, bytes, hr, hlen⟩ := hb i (write_count s)
      have hv := valid_written s bytes bytes.length hs hlen (le_refl _)
      have hu := unread_written s bytes bytes.length hs hlen (le_refl _)
      have hl := (written_inv s bytes bytes.length hs.1 (valid_inv s hs) hlen (le_refl _)).2
      rw [copy_from_step inp fuel s i i1 bytes hs.1 (valid_inv s hs) hwc hr hlen] at h
      split at h
      · cases h
        exact ⟨hv, rfl, hl, _, hu⟩
      · obtain ⟨hv', hr', hl', extra, hu'⟩ := ih _ _ _ _ hv h
        refine ⟨hv', by rw [hr']; rfl, by rw [hl', hl], bytes.take bytes.length ++ extra, ?_⟩
        rw [hu', hu, List.append_assoc]

end CircularBuffer

theorem min_read_split (size rem rest : Nat) :
    min size rem + min (rem - min size rem) rest = min rem (size + rest) := by
  omega

theorem memread_take (src : List Byte) (off n : Nat) :
    (memread src off n).take n = memread src off n := by
  unfold memread
  rw [List.take_take, Nat.min_self]

theorem memread_append_left (B extra : List Byte) (off n : Nat) (h : off + n ≤ B.length) :
    memread (B ++ extra) off n = memread B off n := by
  apply List.ext_getElem?
  intro j
  rw [memread_getElem?, memread_getElem?]
  by_cases hj : j < n
  · simp only [hj, if_true]
    exact List.getElem?_append_left (by omega)
  · simp only [hj, if_false]

namespace MemoryInputStream

/-- What `read_some` returns while the cursor is inside the buffer. -/
theorem memory_read_some_eq (m : MemoryInputStream) (hm : m.in_position ≤ m.buffer_size)
    (size : Nat) :
    m.read_some size = .ok
      ({ m with in_position := m.in_position + min size (m.buffer_size - m.in_position) },
       memread m.buffer m.in_position (min size (m.buffer_size - m.in_position)),
       min size (m.buffer_size - m.in_position)) := by
  simp only [read_some, hm, if_true]
  by_cases h : min size (m.buffer_size - m.in_position) > 0
  · simp only [h, if_true]
  · have h0 : min size (m.buffer_size - m.in_position) = 0 := by omega
    simp only [h0, memread, List.take_zero, gt_iff_lt, Nat.lt_irrefl, if_false]

/-- Successive reads never raise and return, in order, the bytes from the cursor on. -/
theorem read_all_eq : ∀ (sizes : List Nat) (m : MemoryInputStream),
    m.in_position ≤ m.buffer_size →
    ∃ m' outs, read_all m sizes = .ok (m', outs) ∧ outs.length = sizes.length ∧
      outs.flatten = memread m.buffer m.in_position
        (min (m.buffer_size - m.in_position) sizes.sum) ∧
      m'.in_position = m.in_position + min (m.buffer_size - m.in_position) sizes.sum ∧
      m'.buffer = m.buffer ∧ m'.buffer_size = m.buffer_size := by
  intro sizes
  induction sizes with
  | nil =>
    intro m _
    exact ⟨m, [], rfl, rfl, by simp [memread], by simp, rfl, rfl⟩
  | cons size sizes ih =>
    intro m hm
    obtain ⟨n, hn⟩ : ∃ n, n = min size (m.buffer_size - m.in_position) := ⟨_, rfl⟩
    have hle : n ≤ m.buffer_size - m.in_position := by omega
    have hm1 : m.in_position + n ≤ m.buffer_size := by omega
    obtain ⟨m', outs, hrun, hlen, hflat, hpos, hbuf, hbs⟩ :=
      ih { m with in_position := m.in_position + n } hm1
    have hsum : n + min (m.buffer_size - (m.in_position + n)) sizes.sum
        = min (m.buffer_size - m.in_position) (size + sizes.sum) := by
      rw [hn, Nat.sub_add_eq]
      exact min_read_split _ _ _
    refine ⟨m', memread m.buffer m.in_position n :: outs, ?_, by simp [hlen], ?_, ?_,
      hbuf, hbs⟩
    · rw [read_all, memory_read_some_eq m hm size, ← hn]
      simp only [hrun, memread_take]
    · rw [List.flatten_cons, hflat, List.sum_cons, ← hsum, memread_add]
    · rw [hpos, List.sum_cons, ← hsum, Nat.add_assoc]

end MemoryInputStream

namespace StringInputStream

/-- What `read_some` returns while the cursor is inside the sequence. -/
theorem string_read_some_eq (st : StringInputStream) (hp : st.in_position ≤ st.in_.length)
    (size : Nat) :
    st.read_some size = .ok
      ({ st with in_position := st.in_position + min size (st.in_.length - st.in_position) },
       memread st.in_ st.in_position (min size (st.in_.length - st.in_position)),
       min size (st.in_.length - st.in_position)) := by
  simp only [read_some, hp, if_true]

end StringInputStream

namespace VectorInputStream

/-- What `read_some` returns while the cursor is inside the sequence. -/
theorem vector_read_some_eq (st : VectorInputStream) (hp : st.in_position ≤ st.in_.length)
    (size : Nat) :
    st.read_some size = .ok
      ({ st with in_position := st.in_position + min size (st.in_.length - st.in_position) },
       memread st.in_ st.in_position (min size (st.in_.length - st.in_position)),
       min size (st.in_.length - st.in_position)) := by
  simp only [read_some, hp, if_true]

end VectorInputStream

namespace LockGuard

theorem acquired_iff (nthreads : Nat) (debug_locks : Bool) :
    acquired nthreads debug_locks ↔ 1 < nthreads := by
  unfold acquired construct
  by_cases h : nthreads > 1 <;> cases debug_locks <;> simp [h]

theorem released_iff (nthreads : Nat) (debug_locks : Bool) :
    released nthreads debug_locks ↔ 1 < nthreads := by
  unfold released destruct
  by_cases h : nthreads > 1 <;> cases debug_locks <;> simp [h]

end LockGuard

namespace CircularBuffer

theorem min_lt_step (m u count fuel : Nat) (h : min m u < fuel + 1) (hc : count ≠ 0)
    (h1 : count ≤ m) (h2 : count ≤ u) : min (m - count) (u - count) < fuel := by
  omega

/-- With more fuel than `min(max_count, unread)` the `copy_to` loop returns. -/
theorem copy_to_loop_total_min {σ : Type} (out : IOutputStream σ) (hb : out.Bounded) :
    ∀ (fuel : Nat) (s : CircularBuffer) (o : σ) (max_count total_count : Nat),
      Inv s → min max_count (s.write_pos - s.read_pos) < fuel →
      ∃ s' o' total, copy_to_loop out fuel s o max_count total_count
        = some (.ok (s', o', total)) := by
  intro fuel
  induction fuel with
  | zero => intro s o m t _ h; omega
  | succ fuel ih =>
    intro s o m t hs hf
    by_cases hrc : min (read_count s) m = 0
    · exact ⟨s, o, t, copy_to_loop_zero out fuel s o m t hrc⟩
    · obtain ⟨o1, count, hw, hle⟩ := hb o (memread s.impl (read_ptr s) (min (read_count s) m))
        (min (read_count s) m)
      have h1 := read_count_le_unread s
      have hcm : count ≤ m := Nat.le_trans hle (Nat.min_le_right _ _)
      have hcu : count ≤ s.write_pos - s.read_pos :=
        Nat.le_trans hle (Nat.le_trans (Nat.min_le_left _ _) h1)
      have hle2 : s.read_pos + count ≤ s.write_pos := by have := hs.1; omega
      have hadv := read_advanced_inv s count hs hle2
      rw [copy_to_loop_step out fuel s o o1 m t count hs hrc hw hle]
      split
      · exact ⟨_, _, _, rfl⟩
      · rename_i hc
        apply ih _ _ _ _ hadv
        rw [read_advanced_unread_count s count hle2]
        exact min_lt_step _ _ _ _ hf hc hcm hcu

theorem read_advanced_zero (s : CircularBuffer) (hs : Valid s) : read_advanced s 0 = s := by
  unfold read_advanced
  have : ¬ (s.read_pos ≥ s.impl.length) := by have := hs.2.2.2; omega
  rw [Nat.add_zero, if_neg this]

theorem written_zero (s : CircularBuffer) (data : List Byte) : written s data 0 = s := by
  unfold written
  rw [memcpy_zero, Nat.add_zero]

end CircularBuffer

namespace StringInputStream

theorem string_copy_to_loop_zero {σ : Type} (out : IOutputStream σ) (fuel : Nat)
    (st : StringInputStream) (o : σ) (max_count total_count : Nat)
    (hrc : min (st.in_.length - st.in_position) max_count = 0) :
    copy_to_loop out (fuel + 1) st o max_count total_count
      = some (.ok (st, o, total_count)) := by
  rw [copy_to_loop]
  simp only [hrc, if_true]

theorem string_copy_to_loop_step {σ : Type} (out : IOutputStream σ) (fuel : Nat)
    (st : StringInputStream) (o o' : σ) (max_count total_count count : Nat)
    (hrc : min (st.in_.length - st.in_position) max_count ≠ 0)
    (hw : out.write_some o
      (memread st.in_ st.in_position (min (st.in_.length - st.in_position) max_count))
      (min (st.in_.length - st.in_position) max_count) = .ok (o', count)) :
    copy_to_loop out (fuel + 1) st o max_count total_count =
      if count = 0 then
        some (.ok ({ st with in_position := st.in_position + count }, o',
          total_count + count))
      else
        copy_to_loop out fuel { st with in_position := st.in_position + count } o'
          (max_count - count) (total_count + count) := by
  rw [copy_to_loop]
  simp only [hrc, if_false, hw]

/-- The `copy_to` loop of an owned-sequence reader into a sink that reports no more than
it was offered: it returns, having moved `total` bytes from the cursor on. -/
theorem string_copy_to_loop_spec {σ : Type} (out : IOutputStream σ) (hb : out.Bounded) :
    ∀ (fuel : Nat) (st : StringInputStream) (o : σ) (max_count total_count : Nat),
      st.in_position ≤ st.in_.length →
      min max_count (st.in_.length - st.in_position) < fuel →
      ∃ st' o' total, copy_to_loop out fuel st o max_count total_count
          = some (.ok (st', o', total_count + total)) ∧
        total ≤ min max_count (st.in_.length - st.in_position) ∧
        st'.in_position = st.in_position + total ∧
        st'.in_ = st.in_ ∧
        (∀ contents : σ → List Byte, out.AppendsTo contents →
          contents o' = contents o ++ memread st.in_ st.in_position total) ∧
        (out.AcceptsAll → total = min max_count (st.in_.length - st.in_position)) := by
  intro fuel
  induction fuel with
  | zero => intro st o m t _ h; omega
  | succ fuel ih =>
    intro st o m t hp hf
    by_cases hrc : min (st.in_.length - st.in_position) m = 0
    · refine ⟨st, o, 0, string_copy_to_loop_zero out fuel st o m t hrc, Nat.zero_le _, rfl, rfl,
        ?_, ?_⟩
      · intro contents _; simp [memread]
      · intro _; rw [Nat.min_comm]; exact hrc.symm
    · obtain ⟨o1, count, hw, hle⟩ := hb o
        (memread st.in_ st.in_position (min (st.in_.length - st.in_position) m))
        (min (st.in_.length - st.in_position) m)
      have hcm : count ≤ m := Nat.le_trans hle (Nat.min_le_right _ _)
      have hcu : count ≤ st.in_.length - st.in_position :=
        Nat.le_trans hle (Nat.min_le_left _ _)
      have hchunk : (memread st.in_ st.in_position
          (min (st.in_.length - st.in_position) m)).take count
          = memread st.in_ st.in_position count := by
        unfold memread
        rw [List.take_take, Nat.min_eq_left hle]
      rw [string_copy_to_loop_step out fuel st o o1 m t count hrc hw]
      by_cases hc : count = 0
      · subst hc
        refine ⟨{ st with in_position := st.in_position + 0 }, o1, 0, by simp only [if_true],
          Nat.zero_le _, rfl, rfl, ?_, ?_⟩
        · intro contents hcont
          rw [hcont _ _ _ _ _ hw, hchunk]
        · intro hacc
          obtain ⟨o2, hw2⟩ := hacc o
            (memread st.in_ st.in_position (min (st.in_.length - st.in_position) m))
            (min (st.in_.length - st.in_position) m)
          have h := hw.symm.trans hw2
          simp only [Except.ok.injEq, Prod.mk.injEq] at h
          exact absurd h.2.symm hrc
      · simp only [hc, if_false]
        obtain ⟨st', o', total, hrun, htot, hpos, hin, hcont', hall'⟩ :=
          ih { st with in_position := st.in_position + count } o1 (m - count) (t + count)
            (show st.in_position + count ≤ st.in_.length by omega)
            (by
              show min (m - count) (st.in_.length - (st.in_position + count)) < fuel
              rw [Nat.sub_add_eq]
              exact CircularBuffer.min_lt_step _ _ _ _ hf hc hcm hcu)
        have hpos' : st'.in_position = st.in_position + count + total := hpos
        have hin' : st'.in_ = st.in_ := hin
        have htot' : total ≤ min (m - count) (st.in_.length - st.in_position - count) := by
          rw [← Nat.sub_add_eq]; exact htot
        refine ⟨st', o', count + total, by rw [hrun, Nat.add_assoc], ?_, ?_, hin', ?_, ?_⟩
        · have := min_split count m (st.in_.length - st.in_position) hcm hcu
          omega
        · rw [hpos', Nat.add_assoc]
        · intro contents hcont
          rw [hcont' contents hcont, hcont _ _ _ _ _ hw, hchunk, List.append_assoc,
            memread_add]
        · intro hacc
          obtain ⟨o2, hw2⟩ := hacc o
            (memread st.in_ st.in_position (min (st.in_.length - st.in_position) m))
            (min (st.in_.length - st.in_position) m)
          have ht := hall' hacc
          have ht' : total = min (m - count) (st.in_.length - st.in_position - count) := by
            rw [← Nat.sub_add_eq]; exact ht
          rw [ht']
          exact min_split count m (st.in_.length - st.in_position) hcm hcu

end StringInputStream

namespace VectorInputStream

theorem vector_copy_to_loop_zero {σ : Type} (out : IOutputStream σ) (fuel : Nat)
    (st : VectorInputStream) (o : σ) (max_count total_count : Nat)
    (hrc : min (st.in_.length - st.in_position) max_count = 0) :
    copy_to_loop out (fuel + 1) st o max_count total_count
      = some (.ok (st, o, total_count)) := by
  rw [copy_to_loop]
  simp only [hrc, if_true]

theorem vector_copy_to_loop_step {σ : Type} (out : IOutputStream σ) (fuel : Nat)
    (st : VectorInputStream) (o o' : σ) (max_count total_count count : Nat)
    (hrc : min (st.in_.length - st.in_position) max_count ≠ 0)
    (hw : out.write_some o
      (memread st.in_ st.in_position (min (st.in_.length - st.in_position) max_count))
      (min (st.in_.length - st.in_position) max_count) = .ok (o', count)) :
    copy_to_loop out (fuel + 1) st o max_count total_count =
      if count = 0 then
        some (.ok ({ st with in_position := st.in_position + count }, o',
          total_count + count))
      else
        copy_to_loop out fuel { st with in_position := st.in_position + count } o'
          (max_count - count) (total_count + count) := by
  rw [copy_to_loop]
  simp only [hrc, if_false, hw]

/-- The `copy_to` loop of an owned-sequence reader into a sink that reports no more than
it was offered: it returns, having moved `total` bytes from the cursor on. -/
theorem vector_copy_to_loop_spec {σ : Type} (out : IOutputStream σ) (hb : out.Bounded) :
    ∀ (fuel : Nat) (st : VectorInputStream) (o : σ) (max_count total_count : Nat),
      st.in_position ≤ st.in_.length →
      min max_count (st.in_.length - st.in_position) < fuel →
      ∃ st' o' total, copy_to_loop out fuel st o max_count total_count
          = some (.ok (st', o', total_count + total)) ∧
        total ≤ min max_count (st.in_.length - st.in_position) ∧
        st'.in_position = st.in_position + total ∧
        st'.in_ = st.in_ ∧
        (∀ contents : σ → List Byte, out.AppendsTo contents →
          contents o' = contents o ++ memread st.in_ st.in_position total) ∧
        (out.AcceptsAll → total = min max_count (st.in_.length - st.in_position)) := by
  intro fuel
  induction fuel with
  | zero => intro st o m t _ h; omega
  | succ fuel ih =>
    intro st o m t hp hf
    by_cases hrc : min (st.in_.length - st.in_position) m = 0
    · refine ⟨st, o, 0, vector_copy_to_loop_zero out fuel st o m t hrc, Nat.zero_le _, rfl, rfl,
        ?_, ?_⟩
      · intro contents _; simp [memread]
      · intro _; rw [Nat.min_comm]; exact hrc.symm
    · obtain ⟨o1, count, hw, hle⟩ := hb o
        (memread st.in_ st.in_position (min (st.in_.length - st.in_position) m))
        (min (st.in_.length - st.in_position) m)
      have hcm : count ≤ m := Nat.le_trans hle (Nat.min_le_right _ _)
      have hcu : count ≤ st.in_.length - st.in_position :=
        Nat.le_trans hle (Nat.min_le_left _ _)
      have hchunk : (memread st.in_ st.in_position
          (min (st.in_.length - st.in_position) m)).take count
          = memread st.in_ st.in_position count := by
        unfold memread
        rw [List.take_take, Nat.min_eq_left hle]
      rw [vector_copy_to_loop_step out fuel st o o1 m t count hrc hw]
      by_cases hc : count = 0
      · subst hc
        refine ⟨{ st with in_position := st.in_position + 0 }, o1, 0, by simp only [if_true],
          Nat.zero_le _, rfl, rfl, ?_, ?_⟩
        · intro contents hcont
          rw [hcont _ _ _ _ _ hw, hchunk]
        · intro hacc
          obtain ⟨o2, hw2⟩ := hacc o
            (memread st.in_ st.in_position (min (st.in_.length - st.in_position) m))
            (min (st.in_.length - st.in_position) m)
          have h := hw.symm.trans hw2
          simp only [Except.ok.injEq, Prod.mk.injEq] at h
          exact absurd h.2.symm hrc
      · simp only [hc, if_false]
        obtain ⟨st', o', total, hrun, htot, hpos, hin, hcont', hall'⟩ :=
          ih { st with in_position := st.in_position + count } o1 (m - count) (t + count)
            (show st.in_position + count ≤ st.in_.length by omega)
            (by
              show min (m - count) (st.in_.length - (st.in_position + count)) < fuel
              rw [Nat.sub_add_eq]
              exact CircularBuffer.min_lt_step _ _ _ _ hf hc hcm hcu)
        have hpos' : st'.in_position = st.in_position + count + total := hpos
        have hin' : st'.in_ = st.in_ := hin
        have htot' : total ≤ min (m - count) (st.in_.length - st.in_position - count) := by
          rw [← Nat.sub_add_eq]; exact htot
        refine ⟨st', o', count + total, by rw [hrun, Nat.add_assoc], ?_, ?_, hin', ?_, ?_⟩
        · have := min_split count m (st.in_.length - st.in_position) hcm hcu
          omega
        · rw [hpos', Nat.add_assoc]
        · intro contents hcont
          rw [hcont' contents hcont, hcont _ _ _ _ _ hw, hchunk, List.append_assoc,
            memread_add]
        · intro hacc
          obtain ⟨o2, hw2⟩ := hacc o
            (memread st.in_ st.in_position (min (st.in_.length - st.in_position) m))
            (min (st.in_.length - st.in_position) m)
          have ht := hall' hacc
          have ht' : total = min (m - count) (st.in_.length - st.in_position - count) := by
            rw [← Nat.sub_add_eq]; exact ht
          rw [ht']
          exact min_split count m (st.in_.length - st.in_position) hcm hcu

end VectorInputStream

namespace CircularBuffer

/-! ## The claims -/

/-- C1 (ring-buffer invariant).  For every capacity `C > 0`, each of `write_some`,
`read_some`, `copy_from` and `copy_to`, with any sizes and data (`data` holding `size`
bytes at least) and any counterpart stream that reports a count no larger than the one
it was offered, returns without raising and
maps a state satisfying `readPos <= writePos` and `writePos <= readPos + C` to a state
satisfying both again (the two loops return whenever the fuel exceeds the free,
respectively unread, byte count); hence both inequalities hold in every state reachable
from a freshly constructed buffer. -/
theorem ring_buffer_invariant (C : Nat) (hC : 0 < C) :
    (∀ (s : CircularBuffer) (data : List Byte) (size : Nat),
      s.impl.length = C → Inv s → size ≤ data.length →
      ∃ s' n, write_some s data size = .ok (s', n) ∧ Inv s' ∧ s'.impl.length = C) ∧
    (∀ (s : CircularBuffer) (size : Nat), s.impl.length = C → Inv s →
      ∃ s' data n, read_some s size = .ok (s', data, n) ∧ Inv s' ∧ s'.impl.length = C) ∧
    (∀ (σ : Type) (inp : IInputStream σ), inp.Bounded →
      ∀ (s : CircularBuffer) (i : σ), s.impl.length = C → Inv s →
        (∀ fuel s' i', copy_from inp fuel s i = some (.ok (s', i')) →
          Inv s' ∧ s'.impl.length = C) ∧
        (∀ fuel, C - (s.write_pos - s.read_pos) < fuel →
          ∃ s' i', copy_from inp fuel s i = some (.ok (s', i')))) ∧
    (∀ (σ : Type) (out : IOutputStream σ), out.Bounded →
      ∀ (s : CircularBuffer) (o : σ) (max_count : Nat), s.impl.length = C → Inv s →
        (∀ fuel s' o' total, copy_to out fuel s o max_count = some (.ok (s', o', total)) →
          Inv s' ∧ s'.impl.length = C) ∧
        (∀ fuel, s.write_pos - s.read_pos < fuel →
          ∃ s' o' total, copy_to out fuel s o max_count = some (.ok (s', o', total)))) ∧
    (∀ s : CircularBuffer, Reachable C s → Inv s ∧ s.impl.length = C) := by
  have hw : ∀ (s : CircularBuffer) (data : List Byte) (size : Nat),
      s.impl.length = C → Inv s → size ≤ data.length →
      ∃ s' n, write_some s data size = .ok (s', n) ∧ Inv s' ∧ s'.impl.length = C := by
    intro s data size hlen hs hd
    have h := written_inv s data (min size (write_count s)) (by omega) hs (by omega) (by omega)
    exact ⟨_, _, write_some_eq s data size (by omega) hs hd, h.1, by rw [h.2, hlen]⟩
  have hr : ∀ (s : CircularBuffer) (size : Nat), s.impl.length = C → Inv s →
      ∃ s' data n, read_some s size = .ok (s', data, n) ∧ Inv s' ∧ s'.impl.length = C := by
    intro s size hlen hs
    have h1 := read_count_le_unread s
    refine ⟨_, _, _, read_some_eq s size hs, ?_, by rw [read_advanced_impl, hlen]⟩
    exact read_advanced_inv s _ hs (by have := hs.1; omega)
  have hf : ∀ (σ : Type) (inp : IInputStream σ), inp.Bounded →
      ∀ (s : CircularBuffer) (i : σ), s.impl.length = C → Inv s →
        (∀ fuel s' i', copy_from inp fuel s i = some (.ok (s', i')) →
          Inv s' ∧ s'.impl.length = C) ∧
        (∀ fuel, C - (s.write_pos - s.read_pos) < fuel →
          ∃ s' i', copy_from inp fuel s i = some (.ok (s', i'))) := by
    intro σ inp hb s i hlen hs
    constructor
    · intro fuel s' i' h
      have := copy_from_inv inp hb fuel s i s' i' (by omega) hs h
      exact ⟨this.1, by rw [this.2, hlen]⟩
    · intro fuel hfuel
      exact copy_from_total inp hb fuel s i (by omega) hs (by rw [hlen]; exact hfuel)
  have ht : ∀ (σ : Type) (out : IOutputStream σ), out.Bounded →
      ∀ (s : CircularBuffer) (o : σ) (max_count : Nat), s.impl.length = C → Inv s →
        (∀ fuel s' o' total, copy_to out fuel s o max_count = some (.ok (s', o', total)) →
          Inv s' ∧ s'.impl.length = C) ∧
        (∀ fuel, s.write_pos - s.read_pos < fuel →
          ∃ s' o' total, copy_to out fuel s o max_count = some (.ok (s', o', total))) := by
    intro σ out hb s o m hlen hs
    constructor
    · intro fuel s' o' total h
      have := copy_to_loop_inv out hb fuel s o m 0 s' o' total hs h
      exact ⟨this.1, by rw [this.2, hlen]⟩
    · intro fuel hfuel
      exact copy_to_loop_total out hb fuel s o m 0 hs hfuel
  refine ⟨hw, hr, hf, ht, ?_⟩
  intro s hreach
  induction hreach with
  | fresh => exact ⟨by simp [Inv, create], by simp [create]⟩
  | write_some _ hd h ih =>
    obtain ⟨s1, n1, h1, hi, hl⟩ := hw _ _ _ ih.2 ih.1 hd
    rw [h1] at h
    cases h
    exact ⟨hi, hl⟩
  | read_some _ h ih =>
    obtain ⟨s1, d1, n1, h1, hi, hl⟩ := hr _ _ ih.2 ih.1
    rw [h1] at h
    cases h
    exact ⟨hi, hl⟩
  | copy_from _ hb h ih => exact (hf _ _ hb _ _ ih.2 ih.1).1 _ _ _ h
  | copy_to _ hb h ih => exact (ht _ _ hb _ _ _ ih.2 ih.1).1 _ _ _ _ h

/-- C1 at capacity 8: three bytes written to the fresh reachable buffer. -/
theorem ring_buffer_invariant_witness :
    (0 < 8) ∧ ∃ s' n, write_some (create 8) [65, 66, 67] 3 = .ok (s', n) ∧ Inv s' ∧
      s'.impl.length = 8 :=
  ⟨by decide, (ring_buffer_invariant 8 (by decide)).1 (create 8) [65, 66, 67] 3 (by decide)
    (by decide) (by decide)⟩

/-- C2 (FIFO order).  For every capacity `C > 0` and every finite sequence of
`write_some(data_i, size_i)` (`data_i` holding `size_i` bytes at least) and
`read_some(size_j)` calls applied in order to a freshly
constructed ring buffer, every call returns, the concatenation of the bytes returned by
the `read_some` calls is a prefix of the concatenation of the accepted bytes of the
`write_some` calls, and the accepted-but-unread remainder is the buffer's unread content,
of length `writePos - readPos`, which does not exceed `C`. -/
theorem fifo_order (C : Nat) (hC : 0 < C) (calls : List Call)
    (hwf : ∀ c ∈ calls, c.WellFormed) :
    ∃ s' events, run (create C) calls = .ok (s', events) ∧
      accepted events = returned events ++ unread s' ∧
      (unread s').length = s'.write_pos - s'.read_pos ∧
      s'.read_pos ≤ s'.write_pos ∧
      s'.write_pos - s'.read_pos ≤ C := by
  obtain ⟨s', events, hrun, hv, hlen, hfifo⟩ := run_fifo calls (create C) (valid_create C hC) hwf
  rw [unread_create, List.nil_append] at hfifo
  have hC' : s'.impl.length = C := by rw [hlen]; simp [create]
  refine ⟨s', events, hrun, hfifo, unread_length s', hv.2.1, ?_⟩
  have := hv.2.2.1
  omega

/-- C2 on a buffer of capacity 4: five bytes offered, two read, three more offered. -/
theorem fifo_order_witness :
    (0 < 4) ∧ (∀ c ∈ [Call.write_some [1, 2, 3, 4, 5] 5, Call.read_some 2,
        Call.write_some [6, 7, 8] 3], c.WellFormed) ∧
      ∃ s' events, run (create 4)
          [Call.write_some [1, 2, 3, 4, 5] 5, Call.read_some 2, Call.write_some [6, 7, 8] 3]
          = .ok (s', events) ∧
        accepted events = returned events ++ unread s' ∧
        (unread s').length = s'.write_pos - s'.read_pos ∧
        s'.read_pos ≤ s'.write_pos ∧
        s'.write_pos - s'.read_pos ≤ 4 :=
  ⟨by decide, by simp [Call.WellFormed],
    fifo_order 4 (by decide) _ (by simp [Call.WellFormed])⟩

/-- C3 (round trip).  For every capacity `C > 0`, every byte sequence `S` with
`|S| <= C`, every split of `S` into consecutive chunks and every list of read sizes whose
sum is at least `|S|`: on a freshly constructed ring buffer the successive `write_some`
calls each accept their whole chunk, and the concatenation of the bytes returned by the
successive `read_some` calls is exactly `S`. -/
theorem round_trip (C : Nat) (hC : 0 < C) (chunks : List (List Byte))
    (hS : chunks.flatten.length ≤ C) (sizes : List Nat)
    (hsum : chunks.flatten.length ≤ sizes.sum) :
    ∃ s' reads, run (create C) (chunks.map (fun c => Call.write_some c c.length)
        ++ sizes.map Call.read_some)
        = .ok (s', chunks.map (fun c => Event.write_some c c.length c.length) ++ reads) ∧
      reads.length = sizes.length ∧
      returned reads = chunks.flatten := by
  obtain ⟨s', reads, hrun, hlen, hret⟩ := run_writes_reads chunks (create C)
    (valid_create C hC) rfl (by simpa [create] using hS) sizes
  refine ⟨s', reads, hrun, hlen, ?_⟩
  rw [hret, unread_create, List.nil_append, List.take_of_length_le hsum]

/-- C3 at capacity 6: `S` of six bytes written as chunks of 2, 0, 3 and 1 bytes and read
back with sizes 4, 1 and 5. -/
theorem round_trip_witness :
    (0 < 6) ∧ ([[1, 2], [], [3, 4, 5], [6]] : List (List Byte)).flatten.length ≤ 6 ∧
      ([[1, 2], [], [3, 4, 5], [6]] : List (List Byte)).flatten.length ≤ [4, 1, 5].sum ∧
      ∃ s' reads, run (create 6)
          (([[1, 2], [], [3, 4, 5], [6]] : List (List Byte)).map
              (fun c => Call.write_some c c.length) ++ [4, 1, 5].map Call.read_some)
          = .ok (s', ([[1, 2], [], [3, 4, 5], [6]] : List (List Byte)).map
              (fun c => Event.write_some c c.length c.length) ++ reads) ∧
        reads.length = [4, 1, 5].length ∧
        returned reads = ([[1, 2], [], [3, 4, 5], [6]] : List (List Byte)).flatten :=
  ⟨by decide, by decide, by decide,
    round_trip 6 (by decide) [[1, 2], [], [3, 4, 5], [6]] (by decide) [4, 1, 5] (by decide)⟩

/-- C4 (`write_some` postcondition).  In every valid ring-buffer state and for every
data and size (`data` holding `size` bytes at least), `write_some(data, size)` returns `n = min(size, w)` with
`w = min(C - (writePos - readPos), C - (writePos mod C))`; it stores `data[0..n)` at
storage indices `(writePos mod C) .. (writePos mod C) + n - 1`, which lie inside the
storage, changes no other storage byte, increases `writePos` by exactly `n` and leaves
`readPos` unchanged. -/
theorem write_some_postcondition (s : CircularBuffer) (data : List Byte) (size : Nat)
    (hs : Valid s) (hd : size ≤ data.length) :
    ∃ s' n, write_some s data size = .ok (s', n) ∧
      n = min size (min (s.impl.length - (s.write_pos - s.read_pos))
        (s.impl.length - s.write_pos % s.impl.length)) ∧
      s.write_pos % s.impl.length + n ≤ s.impl.length ∧
      s'.impl.length = s.impl.length ∧
      (∀ j, j < n → s'.impl[s.write_pos % s.impl.length + j]? = data[j]?) ∧
      (∀ k, ¬ (s.write_pos % s.impl.length ≤ k ∧ k < s.write_pos % s.impl.length + n) →
        s'.impl[k]? = s.impl[k]?) ∧
      s'.write_pos = s.write_pos + n ∧
      s'.read_pos = s.read_pos := by
  have hn : min size (write_count s) ≤ write_count s := Nat.min_le_right _ _
  have hp := write_ptr_add_write_count s hs.1
  have hp' : write_ptr s + min size (write_count s) ≤ s.impl.length := by omega
  have hsz : min size (write_count s) ≤ data.length := by omega
  refine ⟨written s data (min size (write_count s)), min size (write_count s),
    write_some_eq s data size hs.1 (valid_inv s hs) hd, rfl, hp',
    memcpy_length _ _ _ _ hp' hsz, ?_, ?_, rfl, rfl⟩
  · intro j hj
    show (memcpy s.impl (write_ptr s) data (min size (write_count s)))[write_ptr s + j]? = _
    rw [memcpy_getElem? _ _ _ _ _ hp' hsz]
    have : write_ptr s ≤ write_ptr s + j ∧
        write_ptr s + j < write_ptr s + min size (write_count s) := by omega
    simp only [this, and_self, if_true, Nat.add_sub_cancel_left]
  · intro k hk
    show (memcpy s.impl (write_ptr s) data (min size (write_count s)))[k]? = _
    rw [memcpy_getElem? _ _ _ _ _ hp' hsz]
    have hk' : ¬ (write_ptr s ≤ k ∧ k < write_ptr s + min size (write_count s)) := hk
    simp only [hk', if_false]

/-- C4 on a buffer of capacity 4 with cursors 3 and 5: of three bytes offered, two are
accepted. -/
theorem write_some_postcondition_witness :
    Valid { impl := [1, 2, 3, 4], read_pos := 3, write_pos := 5 } ∧
      (3 ≤ ([7, 8, 9] : List Byte).length) ∧
      ∃ s' n, write_some { impl := [1, 2, 3, 4], read_pos := 3, write_pos := 5 } [7, 8, 9] 3
          = .ok (s', n) ∧
        n = min 3 (min (4 - (5 - 3)) (4 - 5 % 4)) ∧
        5 % 4 + n ≤ 4 ∧
        s'.impl.length = 4 ∧
        (∀ j, j < n → s'.impl[5 % 4 + j]? = ([7, 8, 9] : List Byte)[j]?) ∧
        (∀ k, ¬ (5 % 4 ≤ k ∧ k < 5 % 4 + n) → s'.impl[k]? = ([1, 2, 3, 4] : List Byte)[k]?) ∧
        s'.write_pos = 5 + n ∧
        s'.read_pos = 3 :=
  ⟨by decide, by decide,
    write_some_postcondition { impl := [1, 2, 3, 4], read_pos := 3, write_pos := 5 } [7, 8, 9] 3
      (by decide) (by decide)⟩

/-- C5 (`read_some` postcondition).  In every valid ring-buffer state and for every size,
`read_some(buffer, size)` returns `n = min(size, r)` with
`r = min(writePos - readPos, C - (readPos mod C))`; `buffer[0..n)` receives the storage
bytes at indices `(readPos mod C) .. (readPos mod C) + n - 1`, which are the `n` oldest
unread bytes; the storage array is not modified and the unread count decreases by
exactly `n`. -/
theorem read_some_postcondition (s : CircularBuffer) (size : Nat) (hs : Valid s) :
    ∃ s' bytes n, read_some s size = .ok (s', bytes, n) ∧
      n = min size (min (s.write_pos - s.read_pos)
        (s.impl.length - s.read_pos % s.impl.length)) ∧
      bytes.length = n ∧
      s.read_pos % s.impl.length + n ≤ s.impl.length ∧
      (∀ j, j < n → bytes[j]? = s.impl[s.read_pos % s.impl.length + j]?) ∧
      bytes = (unread s).take n ∧
      unread s' = (unread s).drop n ∧
      s'.impl = s.impl ∧
      s'.write_pos - s'.read_pos = s.write_pos - s.read_pos - n := by
  have hn : min size (read_count s) ≤ read_count s := Nat.min_le_right _ _
  have hu := read_count_le_unread s
  have hp := read_ptr_add_read_count s hs.1
  have hp' : read_ptr s + min size (read_count s) ≤ s.impl.length := by omega
  have hle : s.read_pos + min size (read_count s) ≤ s.write_pos := by
    have := hs.2.1; omega
  refine ⟨read_advanced s (min size (read_count s)),
    memread s.impl (read_ptr s) (min size (read_count s)), min size (read_count s),
    read_some_eq s size (valid_inv s hs), rfl, memread_length _ _ _ hp', hp', ?_,
    memread_eq_unread_take s _ hs hn, unread_read_advanced s _ hle, read_advanced_impl s _,
    read_advanced_unread_count s _ hle⟩
  intro j hj
  rw [memread_getElem?]
  simp only [hj, if_true]
  rfl

/-- C5 on a buffer of capacity 4 with cursors 3 and 5: a read of three bytes returns the
one byte before the end of storage. -/
theorem read_some_postcondition_witness :
    Valid { impl := [1, 2, 3, 4], read_pos := 3, write_pos := 5 } ∧
      ∃ s' bytes n, read_some { impl := [1, 2, 3, 4], read_pos := 3, write_pos := 5 } 3
          = .ok (s', bytes, n) ∧
        n = min 3 (min (5 - 3) (4 - 3 % 4)) ∧
        bytes.length = n ∧
        3 % 4 + n ≤ 4 ∧
        (∀ j, j < n → bytes[j]? = ([1, 2, 3, 4] : List Byte)[3 % 4 + j]?) ∧
        bytes = (unread { impl := [1, 2, 3, 4], read_pos := 3, write_pos := 5 }).take n ∧
        unread s' = (unread { impl := [1, 2, 3, 4], read_pos := 3, write_pos := 5 }).drop n ∧
        s'.impl = [1, 2, 3, 4] ∧
        s'.write_pos - s'.read_pos = 5 - 3 - n :=
  ⟨by decide,
    read_some_postcondition { impl := [1, 2, 3, 4], read_pos := 3, write_pos := 5 } 3
      (by decide)⟩

/-- C9 (normalization).  In every valid ring-buffer state and for every
`count <= writePos - readPos`, `did_read(count)` does not raise, leaves the unread count
equal to the old `writePos - readPos` minus `count`, leaves `writePos mod C` unchanged,
makes the new `readPos` congruent to `readPos + count` modulo `C`, subtracts `C` only
when both advanced counters are at least `C`, and ends with `readPos < C` and
`writePos <= readPos + C < 2C`. -/
theorem did_read_normalization (s : CircularBuffer) (count : Nat) (hs : Valid s)
    (hc : count ≤ s.write_pos - s.read_pos) :
    ∃ s', did_read s count = .ok s' ∧
      s'.impl = s.impl ∧
      s'.write_pos - s'.read_pos = s.write_pos - s.read_pos - count ∧
      s'.write_pos % s.impl.length = s.write_pos % s.impl.length ∧
      s'.read_pos % s.impl.length = (s.read_pos + count) % s.impl.length ∧
      (s.read_pos + count < s.impl.length →
        s'.read_pos = s.read_pos + count ∧ s'.write_pos = s.write_pos) ∧
      (s.impl.length ≤ s.read_pos + count →
        s.impl.length ≤ s.write_pos ∧
        s'.read_pos + s.impl.length = s.read_pos + count ∧
        s'.write_pos + s.impl.length = s.write_pos) ∧
      s'.read_pos ≤ s'.write_pos ∧
      s'.read_pos < s.impl.length ∧
      s'.write_pos ≤ s'.read_pos + s.impl.length ∧
      s'.read_pos + s.impl.length < 2 * s.impl.length := by
  obtain ⟨hC, h1, h2, h3⟩ := hs
  have hle : s.read_pos + count ≤ s.write_pos := by omega
  refine ⟨read_advanced s count, did_read_eq s count hle, read_advanced_impl s count,
    read_advanced_unread_count s count hle, ?_⟩
  unfold read_advanced
  by_cases hn : s.read_pos + count ≥ s.impl.length
  · rw [if_pos hn]
    dsimp only
    refine ⟨?_, ?_, ?_, ?_, ?_, ?_, ?_, ?_⟩
    · exact (Nat.mod_eq_sub_mod (by omega)).symm
    · exact (Nat.mod_eq_sub_mod hn).symm
    · intro h; omega
    · intro _; omega
    · omega
    · omega
    · omega
    · omega
  · rw [if_neg hn]
    dsimp only
    refine ⟨rfl, rfl, ?_, ?_, ?_, ?_, ?_, ?_⟩
    · intro _; exact ⟨rfl, rfl⟩
    · intro h; omega
    · omega
    · omega
    · omega
    · omega

/-- C9 on a buffer of capacity 4 with cursors 3 and 6: advancing by 2 normalizes the
cursors to 1 and 2. -/
theorem did_read_normalization_witness :
    Valid { impl := [1, 2, 3, 4], read_pos := 3, write_pos := 6 } ∧ (2 ≤ 6 - 3) ∧
      ∃ s', did_read { impl := [1, 2, 3, 4], read_pos := 3, write_pos := 6 } 2 = .ok s' ∧
        s'.impl = [1, 2, 3, 4] ∧
        s'.write_pos - s'.read_pos = 6 - 3 - 2 ∧
        s'.write_pos % 4 = 6 % 4 ∧
        s'.read_pos % 4 = (3 + 2) % 4 ∧
        (3 + 2 < 4 → s'.read_pos = 3 + 2 ∧ s'.write_pos = 6) ∧
        (4 ≤ 3 + 2 → 4 ≤ 6 ∧ s'.read_pos + 4 = 3 + 2 ∧ s'.write_pos + 4 = 6) ∧
        s'.read_pos ≤ s'.write_pos ∧
        s'.read_pos < 4 ∧
        s'.write_pos ≤ s'.read_pos + 4 ∧
        s'.read_pos + 4 < 2 * 4 :=
  ⟨by decide, by decide,
    did_read_normalization { impl := [1, 2, 3, 4], read_pos := 3, write_pos := 6 } 2
      (by decide) (by decide)⟩

/-- C10 (empty read).  In every valid ring-buffer state, `read_some(buffer, maxSize)`
returns 0 if and only if `maxSize = 0` or the buffer is empty (`readPos == writePos`); in
particular `read_some` on an empty buffer returns 0 and leaves the state as it is, and a
read of `maxSize > 0` from a non-empty buffer returns at least 1 byte. -/
theorem read_some_zero_iff (s : CircularBuffer) (maxSize : Nat) (hs : Valid s) :
    ∃ s' bytes n, read_some s maxSize = .ok (s', bytes, n) ∧
      bytes.length = n ∧
      (n = 0 ↔ (maxSize = 0 ∨ s.read_pos = s.write_pos)) ∧
      (s.read_pos = s.write_pos → n = 0 ∧ s' = s) ∧
      (0 < maxSize → s.read_pos ≠ s.write_pos → 1 ≤ n) := by
  obtain ⟨hC, h1, h2, h3⟩ := hs
  have hp := read_ptr_add_read_count s hC
  have hrc : read_count s = min (s.write_pos - s.read_pos) (s.impl.length - s.read_pos) := by
    unfold read_count; rw [Nat.mod_eq_of_lt h3]
  refine ⟨read_advanced s (min maxSize (read_count s)),
    memread s.impl (read_ptr s) (min maxSize (read_count s)), min maxSize (read_count s),
    read_some_eq s maxSize ⟨h1, h2⟩, memread_length _ _ _ (by omega), ?_, ?_, ?_⟩
  · rw [hrc]; omega
  · intro he
    have h0 : min maxSize (read_count s) = 0 := by rw [hrc]; omega
    refine ⟨h0, ?_⟩
    rw [h0]
    unfold read_advanced
    have : ¬ (s.read_pos ≥ s.impl.length) := by omega
    rw [Nat.add_zero, if_neg this]
  · intro hm hne
    rw [hrc]; omega

/-- C10 on a buffer of capacity 4 with cursors 3 and 5: a read of two bytes returns
a byte. -/
theorem read_some_zero_iff_witness :
    Valid { impl := [1, 2, 3, 4], read_pos := 3, write_pos := 5 } ∧
      ∃ s' bytes n, read_some { impl := [1, 2, 3, 4], read_pos := 3, write_pos := 5 } 2
          = .ok (s', bytes, n) ∧
        bytes.length = n ∧
        (n = 0 ↔ (2 = 0 ∨ 3 = 5)) ∧
        (3 = 5 → n = 0 ∧ s' = { impl := [1, 2, 3, 4], read_pos := 3, write_pos := 5 }) ∧
        (0 < 2 → 3 ≠ 5 → 1 ≤ n) :=
  ⟨by decide,
    read_some_zero_iff { impl := [1, 2, 3, 4], read_pos := 3, write_pos := 5 } 2 (by decide)⟩

/-- C6 (draining with `copy_to`).  In every valid ring-buffer state with
`u = writePos - readPos` unread bytes, `copy_to(sink, maxCount)` into a sink whose
`write_some` accepts everything offered returns exactly `min(u, maxCount)`, appends to a
sink that holds what it accepts, such as a `VectorOutputStream`, exactly the
`min(u, maxCount)` oldest unread bytes in write order, wherever they lie in the storage,
and leaves `u - min(u, maxCount)` bytes unread.  Scenario at capacity 8:
`write_some("ABCDE")` returns 5; `read_some` into a 3-byte buffer returns the 3 bytes
"ABC"; `write_some("FGH")` returns 3; `copy_to(sink, 100)` returns 5 and the sink holds
"DEFGH". -/
theorem copy_to_drains {σ : Type} (out : IOutputStream σ) (hacc : out.AcceptsAll)
    (s : CircularBuffer) (hs : Valid s) (o : σ)
    (maxCount fuel : Nat) (hfuel : s.write_pos - s.read_pos < fuel) :
    (∃ s' o', copy_to out fuel s o maxCount
        = some (.ok (s', o', min (s.write_pos - s.read_pos) maxCount)) ∧
      (∀ contents : σ → List Byte, out.AppendsTo contents →
        contents o' = contents o ++
          (unread s).take (min (s.write_pos - s.read_pos) maxCount)) ∧
      unread s' = (unread s).drop (min (s.write_pos - s.read_pos) maxCount) ∧
      s'.write_pos - s'.read_pos
        = s.write_pos - s.read_pos - min (s.write_pos - s.read_pos) maxCount ∧
      s'.impl = s.impl ∧ Valid s') ∧
    (write_some (create 8) [65, 66, 67, 68, 69] 5
        = .ok ({ impl := [65, 66, 67, 68, 69, 0, 0, 0], read_pos := 0, write_pos := 5 }, 5) ∧
      read_some { impl := [65, 66, 67, 68, 69, 0, 0, 0], read_pos := 0, write_pos := 5 } 3
        = .ok ({ impl := [65, 66, 67, 68, 69, 0, 0, 0], read_pos := 3, write_pos := 5 },
            [65, 66, 67], 3) ∧
      write_some { impl := [65, 66, 67, 68, 69, 0, 0, 0], read_pos := 3, write_pos := 5 }
          [70, 71, 72] 3
        = .ok ({ impl := [65, 66, 67, 68, 69, 70, 71, 72], read_pos := 3, write_pos := 8 }, 3) ∧
      copy_to VectorOutputStream.stream 6
          { impl := [65, 66, 67, 68, 69, 70, 71, 72], read_pos := 3, write_pos := 8 }
          { out := [] } 100
        = some (.ok ({ impl := [65, 66, 67, 68, 69, 70, 71, 72], read_pos := 0, write_pos := 0 },
            { out := [68, 69, 70, 71, 72] }, 5))) := by
  refine ⟨?_, rfl, rfl, rfl, rfl⟩
  have h := copy_to_loop_accepts_all out hacc fuel s o maxCount 0 hs hfuel
  rw [Nat.zero_add] at h
  exact h

/-- C6 on a buffer of capacity 4 whose three unread bytes 4, 1, 2 straddle the end of
storage, drained into a vector that already holds 9. -/
theorem copy_to_drains_witness :
    Valid { impl := [1, 2, 3, 4], read_pos := 3, write_pos := 6 } ∧ (6 - 3 < 4) ∧
      ∃ s' o', copy_to VectorOutputStream.stream 4
          { impl := [1, 2, 3, 4], read_pos := 3, write_pos := 6 } { out := [9] } 100
          = some (.ok (s', o', min (6 - 3) 100)) ∧
        o'.out = [9] ++ (unread { impl := [1, 2, 3, 4], read_pos := 3, write_pos := 6 }).take
          (min (6 - 3) 100) ∧
        unread s' = (unread { impl := [1, 2, 3, 4], read_pos := 3, write_pos := 6 }).drop
          (min (6 - 3) 100) ∧
        s'.write_pos - s'.read_pos = 6 - 3 - min (6 - 3) 100 ∧
        s'.impl = [1, 2, 3, 4] ∧ Valid s' := by
  refine ⟨by decide, by decide, ?_⟩
  obtain ⟨s', o', h1, h2, h3⟩ := (copy_to_drains VectorOutputStream.stream
    VectorOutputStream.stream_accepts_all
    { impl := [1, 2, 3, 4], read_pos := 3, write_pos := 6 } (by decide) { out := [9] } 100 4
    (by decide)).1
  exact ⟨s', o', h1, h2 (fun v => v.out) VectorOutputStream.stream_appends_to, h3⟩

/-- C7 (filling with `copy_from`).  In every valid ring-buffer state with
`f = C - (writePos - readPos)` free bytes, `copy_from(source)` from a `MemoryInputStream`
with `k` bytes remaining consumes exactly `m = min(k, f)` bytes from the source (its
position advances by `m`), increases the unread count by `m` leaving `readPos`
unchanged, and makes the buffer's unread content equal to the old unread content
followed by the first `m` remaining source bytes, wherever the free space lies in the
storage; on return the buffer is full or the source is exhausted. -/
theorem copy_from_fills (s : CircularBuffer) (hs : Valid s) (m : MemoryInputStream)
    (hm : m.Valid) (fuel : Nat)
    (hfuel : s.impl.length - (s.write_pos - s.read_pos) < fuel) :
    ∃ s' m', copy_from MemoryInputStream.stream fuel s m = some (.ok (s', m')) ∧
      m'.in_position = m.in_position +
        min (m.buffer_size - m.in_position) (s.impl.length - (s.write_pos - s.read_pos)) ∧
      m'.buffer = m.buffer ∧ m'.buffer_size = m.buffer_size ∧
      s'.read_pos = s.read_pos ∧
      s'.write_pos - s'.read_pos = s.write_pos - s.read_pos +
        min (m.buffer_size - m.in_position) (s.impl.length - (s.write_pos - s.read_pos)) ∧
      unread s' = unread s ++ (m.buffer.drop m.in_position).take
        (min (m.buffer_size - m.in_position) (s.impl.length - (s.write_pos - s.read_pos))) ∧
      (s'.write_pos - s'.read_pos = s'.impl.length ∨ m'.in_position = m'.buffer_size) ∧
      Valid s' := by
  obtain ⟨s', m', hrun, hp, hb, hbs, hr, hw, hl, hu, hv⟩ := copy_from_memory fuel s m hs hm hfuel
  have h1 := hs.2.1
  have h2 := hs.2.2.1
  have hm1 := hm.1
  refine ⟨s', m', hrun, hp, hb, hbs, hr, by rw [hw, hr]; omega, hu, ?_, hv⟩
  rw [hl, hw, hr, hp, hbs]
  omega

/-- C7 on a buffer of capacity 4 with cursors 3 and 5, whose two free bytes are at
indices 1 and 2, filled from a five-byte stream. -/
theorem copy_from_fills_witness :
    Valid { impl := [1, 2, 3, 4], read_pos := 3, write_pos := 5 } ∧
      (MemoryInputStream.create [9, 8, 7, 6, 5] 5).Valid ∧ (4 - (5 - 3) < 3) ∧
      ∃ s' m', copy_from MemoryInputStream.stream 3
          { impl := [1, 2, 3, 4], read_pos := 3, write_pos := 5 }
          (MemoryInputStream.create [9, 8, 7, 6, 5] 5) = some (.ok (s', m')) ∧
        m'.in_position = 0 + min (5 - 0) (4 - (5 - 3)) ∧
        m'.buffer = [9, 8, 7, 6, 5] ∧ m'.buffer_size = 5 ∧
        s'.read_pos = 3 ∧
        s'.write_pos - s'.read_pos = 5 - 3 + min (5 - 0) (4 - (5 - 3)) ∧
        unread s' = unread { impl := [1, 2, 3, 4], read_pos := 3, write_pos := 5 } ++
          (([9, 8, 7, 6, 5] : List Byte).drop 0).take (min (5 - 0) (4 - (5 - 3))) ∧
        (s'.write_pos - s'.read_pos = s'.impl.length ∨ m'.in_position = m'.buffer_size) ∧
        Valid s' :=
  ⟨by decide, by decide, by decide,
    copy_from_fills { impl := [1, 2, 3, 4], read_pos := 3, write_pos := 5 } (by decide)
      (MemoryInputStream.create [9, 8, 7, 6, 5] 5) (by decide) 3 (by decide)⟩

/-- C8 (wraparound bound).  In every valid ring-buffer state a single `read_some` never
returns more than `C - (readPos mod C)` bytes and a single `write_some` never accepts
more than `C - (writePos mod C)` bytes, whatever size is requested; so when the unread
bytes straddle the physical end of storage, `copy_to` into an all-accepting sink with
`maxCount >= writePos - readPos` calls the sink's `write_some` twice, the first time
with exactly `C - (readPos mod C)` bytes and the second time with the rest. -/
theorem wraparound_bound (s : CircularBuffer) (hs : Valid s) :
    (∀ size, ∃ s' bytes n, read_some s size = .ok (s', bytes, n) ∧
      n ≤ s.impl.length - s.read_pos % s.impl.length) ∧
    (∀ data size, size ≤ data.length → ∃ s' n, write_some s data size = .ok (s', n) ∧
      n ≤ s.impl.length - s.write_pos % s.impl.length) ∧
    (∀ (σ : Type) (out : IOutputStream σ), out.AcceptsAll →
      ∀ (o : σ) (maxCount fuel : Nat),
        s.impl.length < s.read_pos % s.impl.length + (s.write_pos - s.read_pos) →
        s.write_pos - s.read_pos ≤ maxCount → s.write_pos - s.read_pos < fuel →
        ∃ s' o' log, copy_to out.logged fuel s (o, []) maxCount
            = some (.ok (s', (o', log), s.write_pos - s.read_pos)) ∧
          2 ≤ log.length ∧
          log = [s.impl.length - s.read_pos % s.impl.length,
            s.write_pos - s.read_pos - (s.impl.length - s.read_pos % s.impl.length)]) := by
  refine ⟨?_, ?_, ?_⟩
  · intro size
    refine ⟨_, _, _, read_some_eq s size (valid_inv s hs), ?_⟩
    unfold read_count
    omega
  · intro data size hd
    refine ⟨_, _, write_some_eq s data size hs.1 (valid_inv s hs) hd, ?_⟩
    unfold write_count
    omega
  · intro σ out hacc o maxCount fuel hstr hmax hfuel
    have hmod : s.read_pos % s.impl.length = s.read_pos := Nat.mod_eq_of_lt hs.2.2.2
    rw [hmod] at hstr ⊢
    obtain ⟨s', o', h⟩ := copy_to_loop_straddle out hacc s hs o maxCount fuel hstr hmax hfuel
    refine ⟨s', o', _, h, by simp, ?_⟩
    have h1 := hs.2.1
    have h3 := hs.2.2.2
    have : s.write_pos - s.impl.length
        = s.write_pos - s.read_pos - (s.impl.length - s.read_pos) := by omega
    rw [this]

/-- C8 on a buffer of capacity 4 whose three unread bytes straddle the end of storage:
the vector sink is called with 1 byte, then with 2. -/
theorem wraparound_bound_witness :
    Valid { impl := [1, 2, 3, 4], read_pos := 3, write_pos := 6 } ∧
      ∃ s' o' log, copy_to VectorOutputStream.stream.logged 4
          { impl := [1, 2, 3, 4], read_pos := 3, write_pos := 6 } ({ out := [] }, []) 100
          = some (.ok (s', (o', log), 6 - 3)) ∧
        2 ≤ log.length ∧ log = [4 - 3 % 4, 6 - 3 - (4 - 3 % 4)] :=
  ⟨by decide,
    (wraparound_bound { impl := [1, 2, 3, 4], read_pos := 3, write_pos := 6 } (by decide)).2.2
      VectorOutputStream VectorOutputStream.stream VectorOutputStream.stream_accepts_all
      { out := [] } 100 4 (by decide) (by decide) (by decide)⟩

/-- C11 (full write).  In every valid ring-buffer state, `write_some(data, size)` (`data`
holding `size` bytes at least) returns 0 if and only if `size = 0` or the buffer is full
(`writePos - readPos == C`); in particular `write_some` on a full buffer returns 0 and
changes neither cursor nor any storage byte, and a write of `size > 0` to a buffer that is
not full accepts at least 1 byte. -/
theorem write_some_zero_iff (s : CircularBuffer) (data : List Byte) (size : Nat)
    (hs : Valid s) (hd : size ≤ data.length) :
    ∃ s' n, write_some s data size = .ok (s', n) ∧
      (n = 0 ↔ (size = 0 ∨ s.write_pos - s.read_pos = s.impl.length)) ∧
      (s.write_pos - s.read_pos = s.impl.length → n = 0 ∧ s' = s) ∧
      (0 < size → s.write_pos - s.read_pos ≠ s.impl.length → 1 ≤ n) := by
  have hwv := write_count_valid s hs
  obtain ⟨hC, h1, h2, h3⟩ := hs
  have hwc : write_count s = min (s.impl.length - (s.write_pos - s.read_pos))
      (s.impl.length - s.write_pos % s.impl.length) := rfl
  refine ⟨written s data (min size (write_count s)), min size (write_count s),
    write_some_eq s data size hC ⟨h1, h2⟩ hd, ?_, ?_, ?_⟩
  · rw [hwc]; omega
  · intro hfull
    have h0 : min size (write_count s) = 0 := by rw [hwc]; omega
    refine ⟨h0, ?_⟩
    rw [h0]
    unfold written
    rw [memcpy_zero, Nat.add_zero]
  · intro hsz hnf
    rw [hwc]; omega

/-- C11 on a full buffer of capacity 4 with cursors 3 and 7: nothing of two bytes offered
is accepted. -/
theorem write_some_zero_iff_witness :
    Valid { impl := [1, 2, 3, 4], read_pos := 3, write_pos := 7 } ∧
      (2 ≤ ([8, 9] : List Byte).length) ∧
      ∃ s' n, write_some { impl := [1, 2, 3, 4], read_pos := 3, write_pos := 7 } [8, 9] 2
          = .ok (s', n) ∧
        (n = 0 ↔ (2 = 0 ∨ 7 - 3 = 4)) ∧
        (7 - 3 = 4 → n = 0 ∧ s' = { impl := [1, 2, 3, 4], read_pos := 3, write_pos := 7 }) ∧
        (0 < 2 → 7 - 3 ≠ 4 → 1 ≤ n) :=
  ⟨by decide, by decide,
    write_some_zero_iff { impl := [1, 2, 3, 4], read_pos := 3, write_pos := 7 } [8, 9] 2
      (by decide) (by decide)⟩

/-- C12 (writer never overwrites unread data).  In every valid ring-buffer state,
`write_some` (any data holding `size` bytes at least, any size) and `copy_from` (any source
that reports a count no larger than requested) return and change storage only at physical
indices that hold no unread byte: every storage cell at index `(readPos + i) mod C` for
`0 <= i < writePos - readPos` keeps its value and `readPos` is unchanged, so the sequence
of unread bytes before the call is a prefix of the sequence of unread bytes after it. -/
theorem writer_keeps_unread (s : CircularBuffer) (hs : Valid s) :
    (∀ (data : List Byte) (size : Nat), size ≤ data.length →
      ∃ s' n, write_some s data size = .ok (s', n) ∧ KeepsUnread s s') ∧
    (∀ (σ : Type) (inp : IInputStream σ), inp.Bounded → ∀ (i : σ),
      (∀ fuel s' i', copy_from inp fuel s i = some (.ok (s', i')) → KeepsUnread s s') ∧
      (∀ fuel, s.impl.length - (s.write_pos - s.read_pos) < fuel →
        ∃ s' i', copy_from inp fuel s i = some (.ok (s', i')))) := by
  constructor
  · intro data size hd
    have hn : min size (write_count s) ≤ write_count s := Nat.min_le_right _ _
    have hn2 : min size (write_count s) ≤ data.length := by omega
    refine ⟨_, _, write_some_eq s data size hs.1 (valid_inv s hs) hd, ?_⟩
    exact keeps_of_unread s _ hs rfl
      (written_inv s data _ hs.1 (valid_inv s hs) hn hn2).2 _
      (unread_written s data _ hs hn hn2)
  · intro σ inp hb i
    constructor
    · intro fuel s' i' h
      obtain ⟨_, hr, hl, extra, hu⟩ := copy_from_extends inp hb fuel s i s' i' hs h
      exact keeps_of_unread s s' hs hr hl extra hu
    · intro fuel hfuel
      exact copy_from_total inp hb fuel s i hs.1 (valid_inv s hs) hfuel

/-- C12 on a buffer of capacity 4 with cursors 3 and 5, whose unread bytes are at indices
3 and 0: three bytes offered. -/
theorem writer_keeps_unread_witness :
    Valid { impl := [1, 2, 3, 4], read_pos := 3, write_pos := 5 } ∧
      ∃ s' n, write_some { impl := [1, 2, 3, 4], read_pos := 3, write_pos := 5 } [7, 8, 9] 3
          = .ok (s', n) ∧
        KeepsUnread { impl := [1, 2, 3, 4], read_pos := 3, write_pos := 5 } s' :=
  ⟨by decide,
    (writer_keeps_unread { impl := [1, 2, 3, 4], read_pos := 3, write_pos := 5 }
      (by decide)).1 [7, 8, 9] 3 (by decide)⟩

end CircularBuffer

/-- C13 (flat-buffer reader).  For every buffer `B` of length `L`, every cursor position
`p <= L` and every requested size `k`, `MemoryInputStream::read_some` returns
`n = min(k, L - p)`, copies `B[p..p+n)` to the output, and sets the position to
`p + n <= L` without raising the invariant failure; hence for every sequence of
`read_some` calls on a freshly constructed stream no call raises and the concatenation of
the bytes returned is the prefix of `B` of length `min(L, sum of the requested sizes)`. -/
theorem MemoryInputStream.flat_reader (B : List Byte) :
    (∀ p k, p ≤ B.length →
      MemoryInputStream.read_some { buffer := B, buffer_size := B.length, in_position := p } k
        = .ok ({ buffer := B, buffer_size := B.length,
                 in_position := p + min k (B.length - p) },
            (B.drop p).take (min k (B.length - p)), min k (B.length - p)) ∧
      ((B.drop p).take (min k (B.length - p))).length = min k (B.length - p) ∧
      p + min k (B.length - p) ≤ B.length) ∧
    (∀ sizes : List Nat, ∃ m' outs,
      MemoryInputStream.read_all (MemoryInputStream.create B B.length) sizes = .ok (m', outs) ∧
      outs.length = sizes.length ∧
      outs.flatten = B.take (min B.length sizes.sum) ∧
      m'.in_position = min B.length sizes.sum) := by
  constructor
  · intro p k hp
    refine ⟨MemoryInputStream.memory_read_some_eq _ hp k, ?_, by omega⟩
    exact memread_length B p _ (by omega)
  · intro sizes
    obtain ⟨m', outs, hrun, hlen, hflat, hpos, _, _⟩ :=
      MemoryInputStream.read_all_eq sizes (MemoryInputStream.create B B.length)
        (Nat.zero_le _)
    refine ⟨m', outs, hrun, hlen, ?_, ?_⟩
    · rw [hflat]
      simp [MemoryInputStream.create, memread]
    · rw [hpos]
      simp [MemoryInputStream.create]

/-- C13 on the buffer 1, 2, 3, 4, 5: a read of 4 bytes at position 3 returns the last
two. -/
theorem MemoryInputStream.flat_reader_witness :
    (3 ≤ ([1, 2, 3, 4, 5] : List Byte).length) ∧
      MemoryInputStream.read_some
          { buffer := [1, 2, 3, 4, 5], buffer_size := ([1, 2, 3, 4, 5] : List Byte).length,
            in_position := 3 } 4
        = .ok ({ buffer := [1, 2, 3, 4, 5],
                 buffer_size := ([1, 2, 3, 4, 5] : List Byte).length,
                 in_position := 3 + min 4 (([1, 2, 3, 4, 5] : List Byte).length - 3) },
            (([1, 2, 3, 4, 5] : List Byte).drop 3).take
              (min 4 (([1, 2, 3, 4, 5] : List Byte).length - 3)),
            min 4 (([1, 2, 3, 4, 5] : List Byte).length - 3)) :=
  ⟨by decide, ((MemoryInputStream.flat_reader [1, 2, 3, 4, 5]).1 3 4 (by decide)).1⟩

/-- C14 (owned-sequence reader).  For every backing sequence `B` of length `L`, every
position `p <= L` and every requested size `k`, `StringInputStream::read_some` and
`VectorInputStream::read_some` return `n = min(k, L - p)`, copy the bytes at offsets
`p .. p+n-1` of the sequence, and set the position to `p + n <= L`; in particular when
every byte has been consumed (`p = L`) `read_some` returns 0 for every `k` and leaves the
position unchanged, and appending `extra` to the sequence between two reads changes no
byte returned by an earlier or later read at offsets below the old length. -/
theorem owned_sequence_reader (B : List Byte) (p k : Nat) (hp : p ≤ B.length) :
    StringInputStream.read_some { in_ := B, in_position := p } k
      = .ok ({ in_ := B, in_position := p + min k (B.length - p) },
          (B.drop p).take (min k (B.length - p)), min k (B.length - p)) ∧
    VectorInputStream.read_some { in_ := B, in_position := p } k
      = .ok ({ in_ := B, in_position := p + min k (B.length - p) },
          (B.drop p).take (min k (B.length - p)), min k (B.length - p)) ∧
    ((B.drop p).take (min k (B.length - p))).length = min k (B.length - p) ∧
    (∀ j, j < min k (B.length - p) →
      ((B.drop p).take (min k (B.length - p)))[j]? = B[p + j]?) ∧
    p + min k (B.length - p) ≤ B.length ∧
    (p = B.length →
      StringInputStream.read_some { in_ := B, in_position := p } k
        = .ok ({ in_ := B, in_position := p }, [], 0) ∧
      VectorInputStream.read_some { in_ := B, in_position := p } k
        = .ok ({ in_ := B, in_position := p }, [], 0)) ∧
    (∀ extra : List Byte,
      ((B ++ extra).drop p).take (min k (B.length - p))
        = (B.drop p).take (min k (B.length - p)) ∧
      ∃ bytes n,
        StringInputStream.read_some { in_ := B ++ extra, in_position := p } k
          = .ok ({ in_ := B ++ extra, in_position := p + n }, bytes, n) ∧
        VectorInputStream.read_some { in_ := B ++ extra, in_position := p } k
          = .ok ({ in_ := B ++ extra, in_position := p + n }, bytes, n) ∧
        n = min k ((B ++ extra).length - p) ∧
        ∀ j, j < n → p + j < B.length → bytes[j]? = B[p + j]?) := by
  have hs := StringInputStream.string_read_some_eq { in_ := B, in_position := p } hp k
  have hv := VectorInputStream.vector_read_some_eq { in_ := B, in_position := p } hp k
  have hget : ∀ (l : List Byte) (n j : Nat), j < n → ((l.drop p).take n)[j]? = l[p + j]? := by
    intro l n j hj
    have := memread_getElem? l p n j
    simp only [hj, if_true, memread] at this
    exact this
  refine ⟨hs, hv, memread_length B p _ (by omega), fun j hj => hget B _ j hj, by omega,
    ?_, ?_⟩
  · intro hpl
    have h0 : min k (B.length - p) = 0 := by omega
    rw [hs, hv]
    simp only [h0, memread, List.take_zero, Nat.add_zero, and_self]
  · intro extra
    have hp' : p ≤ (B ++ extra).length := by rw [List.length_append]; omega
    refine ⟨memread_append_left B extra p _ (by omega), _, _,
      StringInputStream.string_read_some_eq { in_ := B ++ extra, in_position := p } hp' k,
      VectorInputStream.vector_read_some_eq { in_ := B ++ extra, in_position := p } hp' k, rfl, ?_⟩
    intro j hj hlt
    have := memread_getElem? (B ++ extra) p (min k ((B ++ extra).length - p)) j
    simp only [hj, if_true] at this
    rw [this]
    exact List.getElem?_append_left hlt

/-- C14 on the sequence 1, 2, 3, 4, 5 at position 3, asked for 4 bytes. -/
theorem owned_sequence_reader_witness :
    (3 ≤ ([1, 2, 3, 4, 5] : List Byte).length) ∧
      StringInputStream.read_some { in_ := [1, 2, 3, 4, 5], in_position := 3 } 4
        = .ok ({ in_ := [1, 2, 3, 4, 5],
                 in_position := 3 + min 4 (([1, 2, 3, 4, 5] : List Byte).length - 3) },
            (([1, 2, 3, 4, 5] : List Byte).drop 3).take
              (min 4 (([1, 2, 3, 4, 5] : List Byte).length - 3)),
            min 4 (([1, 2, 3, 4, 5] : List Byte).length - 3)) :=
  ⟨by decide, (owned_sequence_reader [1, 2, 3, 4, 5] 3 4 (by decide)).1⟩

/-- C15 (owned-sequence writers accept everything).  For every backing sequence `Q`,
every data and every size (`data` holding `size` bytes at least),
`StringOutputStream::write_some` and `VectorOutputStream::write_some` return exactly
`size` and leave the backing sequence equal to `Q` followed by `data[0..size)`, `size`
bytes longer than `Q`; no byte of `Q` at an existing offset is changed. -/
theorem owned_sequence_writers (Q data : List Byte) (size : Nat) (hd : size ≤ data.length) :
    StringOutputStream.write_some { out := Q } data size
      = ({ out := Q ++ data.take size }, size) ∧
    VectorOutputStream.write_some { out := Q } data size
      = ({ out := Q ++ data.take size }, size) ∧
    (Q ++ data.take size).length = Q.length + size ∧
    (∀ j, j < size → (Q ++ data.take size)[Q.length + j]? = data[j]?) ∧
    (∀ j, j < Q.length → (Q ++ data.take size)[j]? = Q[j]?) := by
  refine ⟨rfl, rfl, ?_, ?_, ?_⟩
  · rw [List.length_append, List.length_take, Nat.min_eq_left hd]
  · intro j hj
    rw [List.getElem?_append_right (Nat.le_add_right _ _), Nat.add_sub_cancel_left,
      List.getElem?_take]
    simp only [hj, if_true]
  · intro j hj
    exact List.getElem?_append_left hj

/-- C15 on the sequence 1, 2 and two of the three bytes 7, 8, 9. -/
theorem owned_sequence_writers_witness :
    (2 ≤ ([7, 8, 9] : List Byte).length) ∧
      VectorOutputStream.write_some { out := [1, 2] } [7, 8, 9] 2
        = ({ out := [1, 2] ++ ([7, 8, 9] : List Byte).take 2 }, 2) :=
  ⟨by decide, (owned_sequence_writers [1, 2] [7, 8, 9] 2 (by decide)).2.1⟩

/-- C16 as stated fails: a guard constructed while the thread count is 1 does not lock,
and destroyed while the count is 2 it unlocks. -/
theorem LockGuard.balance_counterexample :
    ¬ (LockGuard.released 2 false ↔ LockGuard.acquired 1 false) := by
  decide

/-- C16, amended (ScopedLock balance).  A `LockGuard` releases the mutex on destruction
if and only if it acquired it on construction whenever the process-wide thread count is
on the same side of the threshold 1 when the constructor runs and when the destructor
runs, as it is when the count does not change; when the count is at most 1 at both
moments neither `lock()` nor `unlock()` is called, and when it is greater than 1 at both
moments `lock()` is called exactly once and `unlock()` exactly once, the lock first. -/
theorem LockGuard.balance (n1 n2 : Nat) (d1 d2 : Bool) (h : 1 < n1 ↔ 1 < n2) :
    (LockGuard.released n2 d2 ↔ LockGuard.acquired n1 d1) ∧
    (n1 ≤ 1 → n2 ≤ 1 →
      LockGuard.construct n1 d1 ++ LockGuard.destruct n2 d2 = []) ∧
    (1 < n1 → 1 < n2 →
      (LockGuard.construct n1 d1 ++ LockGuard.destruct n2 d2).count LockEvent.lock = 1 ∧
      (LockGuard.construct n1 d1 ++ LockGuard.destruct n2 d2).count LockEvent.unlock = 1 ∧
      (LockGuard.construct n1 d1 ++ LockGuard.destruct n2 d2).filter
          (fun e => e = LockEvent.lock ∨ e = LockEvent.unlock)
        = [LockEvent.lock, LockEvent.unlock]) := by
  refine ⟨?_, ?_, ?_⟩
  · rw [LockGuard.released_iff, LockGuard.acquired_iff]
    exact h.symm
  · intro h1 h2
    have e1 : ¬ (n1 > 1) := by omega
    have e2 : ¬ (n2 > 1) := by omega
    simp only [LockGuard.construct, LockGuard.destruct, e1, e2, if_false, List.append_nil]
  · intro h1 h2
    have e1 : n1 > 1 := h1
    have e2 : n2 > 1 := h2
    simp only [LockGuard.construct, LockGuard.destruct, e1, e2, if_true]
    cases d1 <;> cases d2 <;> decide

/-- C16, amended, with three threads at construction and two at destruction. -/
theorem LockGuard.balance_witness :
    (1 < 3 ↔ 1 < 2) ∧ (LockGuard.released 2 true ↔ LockGuard.acquired 3 false) :=
  ⟨by decide, (LockGuard.balance 3 2 false true (by decide)).1⟩

namespace CircularBuffer

/-- C18 (copy loops terminate).  For every valid ring-buffer state, every `maxCount` and
every sink whose `write_some` reports a count no larger than the one offered, `copy_to`
returns within `min(maxCount, writePos - readPos) + 1` loop iterations; and for every
source whose `read_some` reports a count no larger than the one requested, `copy_from`
returns within `C - (writePos - readPos) + 1` loop iterations (a loop given that many
units of fuel, one per iteration, returns a result).  Either loop also returns in the
first iteration in which the counterpart reports 0 bytes moved. -/
theorem copy_loops_terminate (s : CircularBuffer) (hs : Valid s) :
    (∀ (σ : Type) (out : IOutputStream σ), out.Bounded →
      ∀ (o : σ) (maxCount fuel : Nat),
        min maxCount (s.write_pos - s.read_pos) + 1 ≤ fuel →
        ∃ s' o' total, copy_to out fuel s o maxCount = some (.ok (s', o', total))) ∧
    (∀ (σ : Type) (inp : IInputStream σ), inp.Bounded →
      ∀ (i : σ) (fuel : Nat),
        s.impl.length - (s.write_pos - s.read_pos) + 1 ≤ fuel →
        ∃ s' i', copy_from inp fuel s i = some (.ok (s', i'))) ∧
    (∀ (σ : Type) (out : IOutputStream σ) (o o' : σ) (maxCount total fuel : Nat),
      min (read_count s) maxCount ≠ 0 →
      out.write_some o (memread s.impl (read_ptr s) (min (read_count s) maxCount))
        (min (read_count s) maxCount) = .ok (o', 0) →
      copy_to_loop out (fuel + 1) s o maxCount total = some (.ok (s, o', total))) ∧
    (∀ (σ : Type) (inp : IInputStream σ) (i i' : σ) (fuel : Nat),
      write_count s ≠ 0 →
      inp.read_some i (write_count s) = .ok (i', []) →
      copy_from inp (fuel + 1) s i = some (.ok (s, i'))) := by
  refine ⟨?_, ?_, ?_, ?_⟩
  · intro σ out hb o maxCount fuel hfuel
    exact copy_to_loop_total_min out hb fuel s o maxCount 0 (valid_inv s hs) (by omega)
  · intro σ inp hb i fuel hfuel
    exact copy_from_total inp hb fuel s i hs.1 (valid_inv s hs) (by omega)
  · intro σ out o o' maxCount total fuel hrc hw
    rw [copy_to_loop_step out fuel s o o' maxCount total 0 (valid_inv s hs) hrc hw
      (Nat.zero_le _)]
    simp only [if_true, Nat.add_zero, read_advanced_zero s hs]
  · intro σ inp i i' fuel hwc hr
    rw [copy_from_step inp fuel s i i' [] hs.1 (valid_inv s hs) hwc hr (Nat.zero_le _)]
    simp only [List.length_nil, if_true, written_zero]

/-- C18 on a buffer of capacity 4 with three unread bytes straddling the end of storage,
drained with `maxCount = 2`: `min(2, 3) + 1` iterations are enough. -/
theorem copy_loops_terminate_witness :
    Valid { impl := [1, 2, 3, 4], read_pos := 3, write_pos := 6 } ∧
      (min 2 (6 - 3) + 1 ≤ 3) ∧
      ∃ s' o' total, copy_to VectorOutputStream.stream 3
        { impl := [1, 2, 3, 4], read_pos := 3, write_pos := 6 } { out := [] } 2
        = some (.ok (s', o', total)) :=
  ⟨by decide, by decide,
    (copy_loops_terminate { impl := [1, 2, 3, 4], read_pos := 3, write_pos := 6 }
      (by decide)).1 VectorOutputStream VectorOutputStream.stream
      VectorOutputStream.stream_bounded { out := [] } 2 3 (by decide)⟩

/-- C19 (advance steps fail exactly on a contract breach).  For every ring-buffer state
with `readPos <= writePos <= readPos + C` and every count (the counters being natural
numbers, no sum overflows), `did_write(count)` raises the invariant violation if and only
if `count > C - (writePos - readPos)`, and `did_read(count)` raises it if and only if
`count > writePos - readPos`; when they do not raise, the cursor is advanced by exactly
`count` before normalization, whatever the bound. -/
theorem advance_raises_iff (s : CircularBuffer) (count : Nat) (hs : Inv s) :
    (did_write s count = .error "Writing past end of Buffer" ↔
      count > s.impl.length - (s.write_pos - s.read_pos)) ∧
    (count ≤ s.impl.length - (s.write_pos - s.read_pos) →
      did_write s count = .ok { s with write_pos := s.write_pos + count }) ∧
    (did_read s count = .error "Reading past end of Buffer" ↔
      count > s.write_pos - s.read_pos) ∧
    (count ≤ s.write_pos - s.read_pos →
      ∃ s', did_read s count = .ok s' ∧ s'.impl = s.impl ∧
        ((s.read_pos + count < s.impl.length ∧
            s'.read_pos = s.read_pos + count ∧ s'.write_pos = s.write_pos) ∨
         (s.impl.length ≤ s.read_pos + count ∧
            s'.read_pos + s.impl.length = s.read_pos + count ∧
            s'.write_pos + s.impl.length = s.write_pos))) := by
  obtain ⟨h1, h2⟩ := hs
  refine ⟨?_, ?_, ?_, ?_⟩
  · by_cases hc : s.write_pos + count ≤ s.read_pos + s.impl.length
    · rw [did_write_eq s count hc]
      constructor
      · intro h; cases h
      · intro h; omega
    · constructor
      · intro _; omega
      · intro _; simp only [did_write, hc, if_false]
  · intro hc
    exact did_write_eq s count (by omega)
  · by_cases hc : s.read_pos + count ≤ s.write_pos
    · rw [did_read_eq s count hc]
      constructor
      · intro h; cases h
      · intro h; omega
    · constructor
      · intro _; omega
      · intro _; simp only [did_read, hc, if_false]
  · intro hc
    have hle : s.read_pos + count ≤ s.write_pos := by omega
    refine ⟨read_advanced s count, did_read_eq s count hle, read_advanced_impl s count, ?_⟩
    unfold read_advanced
    by_cases hn : s.read_pos + count ≥ s.impl.length
    · rw [if_pos hn]
      right
      dsimp only
      omega
    · rw [if_neg hn]
      left
      dsimp only
      omega

/-- C19 on a buffer of capacity 4 with cursors 3 and 5: advancing the write cursor by 3
raises, the free space being 2. -/
theorem advance_raises_iff_witness :
    Inv { impl := [1, 2, 3, 4], read_pos := 3, write_pos := 5 } ∧
      (did_write { impl := [1, 2, 3, 4], read_pos := 3, write_pos := 5 } 3
          = .error "Writing past end of Buffer" ↔ 3 > 4 - (5 - 3)) :=
  ⟨by decide,
    (advance_raises_iff { impl := [1, 2, 3, 4], read_pos := 3, write_pos := 5 } 3
      (by decide)).1⟩

end CircularBuffer

/-- C20 (owned-sequence `copy_to` keeps the cursor in bounds).  For every backing sequence
`B` of length `L`, every position `p <= L`, every `maxCount` and every sink whose
`write_some` reports a count no larger than the one offered, `StringInputStream::copy_to`
and `VectorInputStream::copy_to` return, within `min(maxCount, L - p) + 1` iterations,
`total <= min(maxCount, L - p)`, advance the position by exactly `total` (so
`position <= length` still holds), and the bytes the sink accepted are, in order, the
bytes at offsets `p .. p+total-1` of the sequence; when the sink accepts everything
offered, `total = min(maxCount, L - p)`. -/
theorem owned_sequence_copy_to {σ : Type} (out : IOutputStream σ) (hb : out.Bounded)
    (B : List Byte) (p maxCount fuel : Nat) (o : σ) (hp : p ≤ B.length)
    (hfuel : min maxCount (B.length - p) < fuel) :
    (∃ st' o' total,
      StringInputStream.copy_to out fuel { in_ := B, in_position := p } o maxCount
        = some (.ok (st', o', total)) ∧
      total ≤ min maxCount (B.length - p) ∧
      st'.in_position = p + total ∧ st'.in_position ≤ B.length ∧ st'.in_ = B ∧
      (∀ contents : σ → List Byte, out.AppendsTo contents →
        contents o' = contents o ++ (B.drop p).take total) ∧
      (out.AcceptsAll → total = min maxCount (B.length - p))) ∧
    (∃ st' o' total,
      VectorInputStream.copy_to out fuel { in_ := B, in_position := p } o maxCount
        = some (.ok (st', o', total)) ∧
      total ≤ min maxCount (B.length - p) ∧
      st'.in_position = p + total ∧ st'.in_position ≤ B.length ∧ st'.in_ = B ∧
      (∀ contents : σ → List Byte, out.AppendsTo contents →
        contents o' = contents o ++ (B.drop p).take total) ∧
      (out.AcceptsAll → total = min maxCount (B.length - p))) := by
  constructor
  · obtain ⟨st', o', total, hrun, htot, hpos, hin, hcont, hall⟩ :=
      StringInputStream.string_copy_to_loop_spec out hb fuel { in_ := B, in_position := p } o
        maxCount 0 hp hfuel
    rw [Nat.zero_add] at hrun
    have htot' : total ≤ min maxCount (B.length - p) := htot
    have hpos' : st'.in_position = p + total := hpos
    exact ⟨st', o', total, hrun, htot', hpos', by omega, hin, hcont, hall⟩
  · obtain ⟨st', o', total, hrun, htot, hpos, hin, hcont, hall⟩ :=
      VectorInputStream.vector_copy_to_loop_spec out hb fuel { in_ := B, in_position := p } o
        maxCount 0 hp hfuel
    rw [Nat.zero_add] at hrun
    have htot' : total ≤ min maxCount (B.length - p) := htot
    have hpos' : st'.in_position = p + total := hpos
    exact ⟨st', o', total, hrun, htot', hpos', by omega, hin, hcont, hall⟩

/-- C20 on the sequence 1, 2, 3, 4, 5 at position 1 with `maxCount = 3`, copied into a
vector that holds 9. -/
theorem owned_sequence_copy_to_witness :
    (1 ≤ ([1, 2, 3, 4, 5] : List Byte).length) ∧
      (min 3 (([1, 2, 3, 4, 5] : List Byte).length - 1) < 4) ∧
      ∃ st' o' total,
        StringInputStream.copy_to VectorOutputStream.stream 4
            { in_ := [1, 2, 3, 4, 5], in_position := 1 } { out := [9] } 3
          = some (.ok (st', o', total)) ∧
        total = min 3 (([1, 2, 3, 4, 5] : List Byte).length - 1) ∧
        st'.in_position = 1 + total ∧
        o'.out = [9] ++ (([1, 2, 3, 4, 5] : List Byte).drop 1).take total := by
  refine ⟨by decide, by decide, ?_⟩
  obtain ⟨st', o', total, hrun, _, hpos, _, _, hcont, hall⟩ :=
    (owned_sequence_copy_to VectorOutputStream.stream VectorOutputStream.stream_bounded
      [1, 2, 3, 4, 5] 1 3 4 { out := [9] } (by decide) (by decide)).1
  exact ⟨st', o', total, hrun, hall VectorOutputStream.stream_accepts_all, hpos,
    hcont (fun v => v.out) VectorOutputStream.stream_appends_to⟩

end common
